import Mathlib

/-!
Verification of the CUDA VP-tree implementation (`src/vpTree.cu`).

The development shallowly embeds the host-side tree builder
(`CUDA_VPTree::buildFromPoints`), the per-query device traversal
(`KNNSearch`), the batch kernel (`KNNSearchBatch`) and the host wrapper
(`CUDA_VPTree::knnSearch`).  Machine doubles are modelled as exact
rationals; points are an abstract type `α` together with a caller-supplied
distance function `d : α → α → ℚ` (the code's injectable `DistFunc`).
The point array and the node table are modelled as Lean lists indexed
exactly as the C arrays are, with the C `while` loops rendered as
fuel-indexed step functions.
-/

namespace cu_vp

/-- Stack capacity from the source: `#define CUDA_STACK_SIZE 32`. -/
def CUDA_STACK_SIZE : ℕ := 32

/-- The exact value of the IEEE-754 `DBL_MAX` constant, used by `KNNSearch`
to initialise `best_dist` and `tau`; doubles are modelled as exact
rationals. -/
def DBL_MAX : ℚ := (2 ^ 53 - 1) * 2 ^ 971

/-- One entry of the flat node table (`struct CUDA_VPNode`). -/
structure CUDA_VPNode where
  index : ℤ
  threshold : ℚ
  left : ℤ
  right : ℤ
  deriving Repr, DecidableEq

/-- Modelled from the spec: the header `vpTree.hpp` declaring `CUDA_VPNode`
is not part of the provided source tree.  Per spec §3, `left`/`right` hold
either a child index or a sentinel meaning "no such child", and a node with
both children absent is a leaf; the builder's size-1 branch writes only the
`index` field, so the default-constructed element must carry the sentinel
`-1` in `left` and `right`.  `index` and `threshold` default to zero. -/
def defaultNode : CUDA_VPNode := ⟨0, 0, -1, -1⟩

/-- `std::swap(data[i], data[j])` on a list (out-of-range indices are
never used by the builder; they leave the list unchanged except for the
in-range one). -/
def listSwap {α : Type} (l : List α) (i j : ℕ) (dfl : α) : List α :=
  (l.set i (l.getD j dfl)).set j (l.getD i dfl)

/-- Modelled from the spec: the comparator `DistComparator(data[lower],
distanceFunc)` lives in the missing header; per spec §4.1 it orders points
by their distance to the vantage point. -/
def distCmp {α : Type} (d : α → α → ℚ) (vp : α) (a b : α) : Prop :=
  d vp a ≤ d vp b

instance {α : Type} (d : α → α → ℚ) (vp : α) : DecidableRel (distCmp d vp) :=
  fun a b => inferInstanceAs (Decidable (d vp a ≤ d vp b))

/-- Modelled from the spec: `std::nth_element(data.begin()+lo, data.begin()+mid,
data.begin()+hi, cmp)` is standard-library code.  Its contract (spec §4.1
step 2) only requires the median-position element to be ≤/≥ the elements
before/after it under the comparator; fully sorting the sub-range `[lo, hi)`
is one conforming realisation, and the one used here. -/
def nthElementRange {α : Type} (d : α → α → ℚ) (vp : α) (l : List α)
    (lo hi : ℕ) : List α :=
  l.take lo ++ List.insertionSort (distCmp d vp) ((l.drop lo).take (hi - lo))
    ++ l.drop hi

/-- The node written by the builder for an internal range `[lower, upper)`
(source lines 245-267), given the already-partitioned data. -/
def internalNode {α : Type} (d : α → α → ℚ) (dfl : α) (data2 : List α)
    (lower upper : ℕ) : CUDA_VPNode :=
  { index := (lower : ℤ)
    threshold := d (data2.getD lower dfl) (data2.getD ((upper + lower) / 2) dfl)
    left := if (upper + lower) / 2 ≠ lower + 1 then (lower : ℤ) + 1 else -1
    right := if upper ≠ (upper + lower) / 2 then (((upper + lower) / 2 : ℕ) : ℤ)
      else -1 }

/-- The in-place reordering performed for an internal range `[lower, upper)`:
move the chosen vantage point (`m = 0.5`, so the midpoint offset — the
`rand()` draw is discarded by the source) to `lower`, then partition
`[lower+1, upper)` around the median distance. -/
def partitionRange {α : Type} (d : α → α → ℚ) (dfl : α) (data : List α)
    (lower upper : ℕ) : List α :=
  let i := lower + (upper - lower - 1) / 2
  let data1 := listSwap data lower i dfl
  nthElementRange d (data1.getD lower dfl) data1 (lower + 1) upper

/-- The builder's work-list loop (source lines 234-271), one constructor
case per loop iteration; `fuel` bounds the number of iterations (the C loop
terminates, as the measure `rangesMeasure` below proves). -/
def buildLoop {α : Type} (d : α → α → ℚ) (dfl : α) :
    ℕ → List (ℕ × ℕ) → List α → List CUDA_VPNode → ℕ →
    List α × List CUDA_VPNode
  | _, [], data, nodes, _ => (data, nodes)
  | 0, _ :: _, data, nodes, _ => (data, nodes)
  | fuel + 1, (lower, upper) :: rest, data, nodes, nodeCount =>
    if lower = upper then
      buildLoop d dfl fuel rest data nodes nodeCount
    else if upper - lower ≤ 1 then
      buildLoop d dfl fuel rest data
        (nodes.set nodeCount
          { nodes.getD nodeCount defaultNode with index := (lower : ℤ) })
        (nodeCount + 1)
    else
      buildLoop d dfl fuel
        ((lower + 1, (upper + lower) / 2) :: ((upper + lower) / 2, upper) :: rest)
        (partitionRange d dfl data lower upper)
        (nodes.set nodeCount
          (internalNode d dfl (partitionRange d dfl data lower upper) lower upper))
        (nodeCount + 1)

/-- Termination measure for the builder's work list: each loop iteration
strictly decreases it. -/
def rangesMeasure (rs : List (ℕ × ℕ)) : ℕ :=
  (rs.map (fun r => 2 * (r.2 - r.1) + 1)).sum

/-- `CUDA_VPTree::buildFromPoints` (source lines 226-283): run the work-list
loop seeded with the full range on a default-initialised node table of size
`N = data.length`.  The fuel `2*N + 1` dominates the loop measure, so the
loop always drains its work list. -/
def buildFromPoints {α : Type} (d : α → α → ℚ) (dfl : α) (data : List α) :
    List α × List CUDA_VPNode :=
  buildLoop d dfl (2 * data.length + 1) [(0, data.length)] data
    (List.replicate data.length defaultNode) 0

/-- Recursive presentation of the builder: what `buildFromPoints` computes
for a single range `[lower, upper)`, with the node table of that range's
slots returned in slot order.  The loop is proved equal to folding this
function over its work list. -/
def buildRange {α : Type} (d : α → α → ℚ) (dfl : α) (data : List α)
    (lower upper : ℕ) : List α × List CUDA_VPNode :=
  if _h : upper ≤ lower then (data, [])
  else if _h1 : upper - lower = 1 then
    (data, [{ defaultNode with index := (lower : ℤ) }])
  else
    let data2 := partitionRange d dfl data lower upper
    let median := (upper + lower) / 2
    let node := internalNode d dfl data2 lower upper
    let L := buildRange d dfl data2 (lower + 1) median
    let R := buildRange d dfl L.1 median upper
    (R.1, node :: (L.2 ++ R.2))
  termination_by upper - lower
  decreasing_by all_goals omega

/-- Shape of the range tree that the builder induces on the slots
`lower..upper-1`: entry `k` describes slot `lower + k` as a pair
`(range end, depth level)`; fuel-indexed so that it evaluates by `decide`. -/
def shapeF : ℕ → ℕ → ℕ → List (ℕ × ℕ)
  | 0, _, _ => []
  | fuel + 1, l, u =>
    if u ≤ l then []
    else if u - l = 1 then [(u, 0)]
    else
      (u, 0) ::
        ((shapeF fuel (l + 1) ((u + l) / 2) ++ shapeF fuel ((u + l) / 2) u).map
          (fun p => (p.1, p.2 + 1)))

/-- Shape of the range tree for the range `[l, u)`. -/
def shape (l u : ℕ) : List (ℕ × ℕ) := shapeF (u - l) l u

/-- The end of the range owned by slot `s` of an `N`-point tree: slot `s`
covers exactly the slots `[s, sendN N s)`. -/
def sendN (N s : ℕ) : ℕ := ((shape 0 N).getD s (0, 0)).1

/-- The depth level of slot `s` in an `N`-point tree (root at level `0`). -/
def slevN (N s : ℕ) : ℕ := ((shape 0 N).getD s (0, 0)).2

/-- Depth (number of levels) of the range tree for `[l, u)`. -/
def rdepthF : ℕ → ℕ → ℕ → ℕ
  | 0, _, _ => 0
  | fuel + 1, l, u =>
    if u ≤ l then 0
    else if u - l = 1 then 1
    else 1 + max (rdepthF fuel (l + 1) ((u + l) / 2)) (rdepthF fuel ((u + l) / 2) u)

/-- Depth (number of levels) of the range tree of an `N`-point build. -/
def rdepth (l u : ℕ) : ℕ := rdepthF (u - l) l u

/-- The per-query traversal state of `KNNSearch` (source lines 47-54).
`stack` lists the live entries of `nodeStack` top-first, so
`stackPtr = stack.length - 1`; the initial sentinel `nodeStack[0] = -1` is
the bottom element.  `hi` records the largest `nodeStack` index written so
far (the memory footprint of the pushes; it never influences control
flow). -/
structure SState where
  best_idx : ℤ
  best_dist : ℚ
  tau : ℚ
  stack : List ℤ
  cur : ℤ
  hi : ℕ
  deriving Repr, DecidableEq

/-- The strict-improvement best update (source lines 59-63). -/
def updBest (cur : ℤ) (dist : ℚ) (bi : ℤ) (bd tau : ℚ) : ℤ × ℚ × ℚ :=
  if dist < tau then (cur, dist, dist) else (bi, bd, tau)

/-- The two pruned pushes of `KNNSearch` (source lines 70-76 and 85-91):
near side of the threshold pushes right then left, far side pushes left
then right; each push writes `nodeStack[++stackPtr]`, i.e. at index equal
to the stack length before the push. -/
def pushChildren (node : CUDA_VPNode) (dist tau : ℚ) (stack : List ℤ)
    (hi : ℕ) : List ℤ × ℕ :=
  if dist < node.threshold then
    let p1 :=
      if node.threshold ≤ dist + tau then (node.right :: stack, max hi stack.length)
      else (stack, hi)
    if dist - tau ≤ node.threshold then (node.left :: p1.1, max p1.2 p1.1.length)
    else p1
  else
    let p1 :=
      if dist - tau ≤ node.threshold then (node.left :: stack, max hi stack.length)
      else (stack, hi)
    if node.threshold ≤ dist + tau then (node.right :: p1.1, max p1.2 p1.1.length)
    else p1

/-- One iteration of the `KNNSearch` loop (source lines 55-104), from loop
top to loop top: `Sum.inr` is loop exit with the returned
`(ret_index, ret_dist)` pair (normal exit, or the capacity-error `break`
with the `(-1, -1)` sentinel), `Sum.inl` the next loop-top state. -/
def stepSearch {α : Type} (nodes : List CUDA_VPNode) (pts : List α) (q : α)
    (d : α → α → ℚ) (dfl : α) (st : SState) : SState ⊕ (ℤ × ℚ) :=
  if st.stack = [] ∧ st.cur = -1 then Sum.inr (st.best_idx, st.best_dist)
  else if st.cur ≠ -1 then
    if (nodes.getD st.cur.toNat defaultNode).left = -1 ∧
        (nodes.getD st.cur.toNat defaultNode).right = -1 then
      Sum.inl ⟨(updBest st.cur (d q (pts.getD st.cur.toNat dfl)) st.best_idx
          st.best_dist st.tau).1,
        (updBest st.cur (d q (pts.getD st.cur.toNat dfl)) st.best_idx
          st.best_dist st.tau).2.1,
        (updBest st.cur (d q (pts.getD st.cur.toNat dfl)) st.best_idx
          st.best_dist st.tau).2.2,
        st.stack, -1, st.hi⟩
    else
      if (CUDA_STACK_SIZE : ℤ) <
          ((pushChildren (nodes.getD st.cur.toNat defaultNode)
              (d q (pts.getD st.cur.toNat dfl))
              (updBest st.cur (d q (pts.getD st.cur.toNat dfl)) st.best_idx
                st.best_dist st.tau).2.2 st.stack st.hi).1.length : ℤ) - 1 then
        Sum.inr (-1, -1)
      else
        match pushChildren (nodes.getD st.cur.toNat defaultNode)
            (d q (pts.getD st.cur.toNat dfl))
            (updBest st.cur (d q (pts.getD st.cur.toNat dfl)) st.best_idx
              st.best_dist st.tau).2.2 st.stack st.hi with
        | ([], hi2) =>
          Sum.inl ⟨(updBest st.cur (d q (pts.getD st.cur.toNat dfl)) st.best_idx
              st.best_dist st.tau).1,
            (updBest st.cur (d q (pts.getD st.cur.toNat dfl)) st.best_idx
              st.best_dist st.tau).2.1,
            (updBest st.cur (d q (pts.getD st.cur.toNat dfl)) st.best_idx
              st.best_dist st.tau).2.2,
            [], st.cur, hi2⟩
        | (t :: rest, hi2) =>
          Sum.inl ⟨(updBest st.cur (d q (pts.getD st.cur.toNat dfl)) st.best_idx
              st.best_dist st.tau).1,
            (updBest st.cur (d q (pts.getD st.cur.toNat dfl)) st.best_idx
              st.best_dist st.tau).2.1,
            (updBest st.cur (d q (pts.getD st.cur.toNat dfl)) st.best_idx
              st.best_dist st.tau).2.2,
            rest, t, hi2⟩
  else
    match st.stack with
    | [] => Sum.inl st
    | t :: rest => Sum.inl ⟨st.best_idx, st.best_dist, st.tau, rest, t, st.hi⟩

/-- Run the `KNNSearch` loop for at most `fuel` iterations; `none` means
the fuel ran out before the loop exited. -/
def runSearch {α : Type} (nodes : List CUDA_VPNode) (pts : List α) (q : α)
    (d : α → α → ℚ) (dfl : α) : ℕ → SState → Option (ℤ × ℚ)
  | 0, _ => none
  | fuel + 1, st =>
    match stepSearch nodes pts q d dfl st with
    | Sum.inr r => some r
    | Sum.inl st' => runSearch nodes pts q d dfl fuel st'

/-- Run the `KNNSearch` loop for at most `n` iterations and return the
reached configuration (either a still-running loop-top state or the exit
value). -/
def iterSearch {α : Type} (nodes : List CUDA_VPNode) (pts : List α) (q : α)
    (d : α → α → ℚ) (dfl : α) : ℕ → SState → SState ⊕ (ℤ × ℚ)
  | 0, st => Sum.inl st
  | n + 1, st =>
    match stepSearch nodes pts q d dfl st with
    | Sum.inr r => Sum.inr r
    | Sum.inl st' => iterSearch nodes pts q d dfl n st'

/-- The configuration is a still-running loop-top state. -/
def stillRunning {γ : Type} : SState ⊕ γ → Bool
  | Sum.inl _ => true
  | Sum.inr _ => false

/-- Largest `nodeStack` index written so far in a running configuration. -/
def hiOf {γ : Type} : SState ⊕ γ → ℕ
  | Sum.inl st => st.hi
  | Sum.inr _ => 0

/-- The initial `KNNSearch` state (source lines 47-54): no best yet,
`best_dist = tau = DBL_MAX`, `nodeStack[0] = -1`, `stackPtr = 0`, start at
the root. -/
def initState : SState := ⟨-1, DBL_MAX, DBL_MAX, [-1], 0, 0⟩

/-- `KNNSearch` (source lines 43-107) as a fuel-indexed function: the
returned `(ret_index, ret_dist)` pair, or `none` if `fuel` loop iterations
did not suffice (the C loop need not terminate on arbitrary tables). -/
def KNNSearch {α : Type} (nodes : List CUDA_VPNode) (pts : List α) (q : α)
    (d : α → α → ℚ) (dfl : α) (fuel : ℕ) : Option (ℤ × ℚ) :=
  runSearch nodes pts q d dfl fuel initState

/-- `KNNSearchBatch` (source lines 120-130): one independent `KNNSearch`
per query, thread `idx` serving query `idx` and writing only
`ret_index[idx]`/`ret_dist[idx]`. -/
def KNNSearchBatch {α : Type} (nodes : List CUDA_VPNode) (pts : List α)
    (queries : List α) (d : α → α → ℚ) (dfl : α) (fuel : ℕ) :
    List (Option (ℤ × ℚ)) :=
  queries.map (fun q => KNNSearch nodes pts q d dfl fuel)

/-- Collect per-query results; `none` if any query's loop failed to
terminate within its fuel. -/
def seqOpt {β : Type} : List (Option β) → Option (List β)
  | [] => some []
  | none :: _ => none
  | some x :: rest => (seqOpt rest).map (fun l => x :: l)

/-- Host-side index state (`class CUDA_VPTree`): the mirrored point array
and node table plus the validity flag. -/
structure CUDA_VPTree (α : Type) where
  num_points : ℕ
  points : List α
  nodes : List CUDA_VPNode
  tree_valid : Bool

/-- The constructor state: `tree_valid` is false until a successful build. -/
def emptyTree {α : Type} : CUDA_VPTree α := ⟨0, [], [], false⟩

/-- `CUDA_VPTree::createVPTree` (source lines 149-166): build from the
point collection, mirror the reordered points, and mark the tree valid. -/
def createVPTree {α : Type} (d : α → α → ℚ) (dfl : α) (data : List α) :
    CUDA_VPTree α :=
  ⟨data.length, (buildFromPoints d dfl data).1, (buildFromPoints d dfl data).2,
    true⟩

/-- `CUDA_VPTree::knnSearch` (source lines 168-212): a no-op leaving the
caller's output vectors untouched when the tree is not valid; otherwise the
outputs are resized and overwritten with the batch kernel's results
(`none` if some query's loop failed to terminate within its fuel). -/
def knnSearch {α : Type} (t : CUDA_VPTree α) (queries : List α)
    (indices : List ℤ) (distances : List ℚ) (d : α → α → ℚ) (dfl : α)
    (fuel : ℕ) : Option (List ℤ × List ℚ) :=
  if t.tree_valid = false then some (indices, distances)
  else
    match seqOpt (KNNSearchBatch t.nodes t.points queries d dfl fuel) with
    | none => none
    | some rs => some (rs.map Prod.fst, rs.map Prod.snd)

/-- Exhaustive linear scan over the point array with the same
strict-improvement update rule as `KNNSearch`: the reference result for the
exactness property (spec §8). -/
def linearScan {α : Type} (d : α → α → ℚ) (q : α) (pts : List α)
    (dfl : α) : ℤ × ℚ :=
  (List.range pts.length).foldl
    (fun b j =>
      if d q (pts.getD j dfl) < b.2 then ((j : ℤ), d q (pts.getD j dfl)) else b)
    (-1, DBL_MAX)

/-- Reachability through the node table's child pointers: `Reaches nodes s t`
holds when slot `t` lies in the subtree rooted at slot `s`. -/
inductive Reaches (nodes : List CUDA_VPNode) : ℕ → ℕ → Prop
  | self (s : ℕ) : Reaches nodes s s
  | goLeft (s t : ℕ) : (nodes.getD s defaultNode).left ≠ -1 →
      Reaches nodes (nodes.getD s defaultNode).left.toNat t → Reaches nodes s t
  | goRight (s t : ℕ) : (nodes.getD s defaultNode).right ≠ -1 →
      Reaches nodes (nodes.getD s defaultNode).right.toNat t → Reaches nodes s t

/-- The value `total` holds after the loop of `euclidean_distance`
(source lines 18-24): each iteration overwrites `total` with the current
coordinate's squared difference instead of accumulating it. -/
def euclidean_total (D : ℕ) (a b : ℕ → ℚ) : ℚ :=
  (List.range D).foldl (fun _total i => (b i - a i) * (b i - a i)) 0

/-- The host reference metric `euclidean_distance` (source lines 18-24),
with coordinates as exact rationals and an exact square root. -/
noncomputable def euclidean_distance (D : ℕ) (a b : ℕ → ℚ) : ℝ :=
  Real.sqrt ((euclidean_total D a b : ℚ) : ℝ)

/-- The device metric `gpu_euclidean_distance` (source lines 26-32); its
body is identical to the host one. -/
noncomputable def gpu_euclidean_distance (D : ℕ) (a b : ℕ → ℚ) : ℝ :=
  Real.sqrt ((euclidean_total D a b : ℚ) : ℝ)

/-! ### List helpers: segments, `getD`/`set` interaction -/

/-- The segment `[a, b)` of a list. -/
def seg {α : Type} (l : List α) (a b : ℕ) : List α := (l.drop a).take (b - a)

theorem seg_length {α : Type} (l : List α) (a b : ℕ) (hb : b ≤ l.length) :
    (seg l a b).length = b - a := by
  simp only [seg, List.length_take, List.length_drop]
  omega

theorem getElem_seg {α : Type} (l : List α) (a b k : ℕ) (_hk : k < b - a)
    (_hb : b ≤ l.length) (h1 : k < (seg l a b).length) (h2 : a + k < l.length) :
    (seg l a b)[k] = l[a + k] := by
  simp [seg]

theorem getD_seg {α : Type} (l : List α) (a b k : ℕ) (dfl : α) (hk : k < b - a)
    (hb : b ≤ l.length) : (seg l a b).getD k dfl = l.getD (a + k) dfl := by
  have h1 : k < (seg l a b).length := by rw [seg_length l a b hb]; exact hk
  rw [List.getD_eq_getElem _ _ h1, List.getD_eq_getElem _ _ (by omega)]
  exact getElem_seg l a b k hk hb h1 (by omega)

theorem getD_set_ne {α : Type} (l : List α) (i j : ℕ) (x : α) (dfl : α)
    (h : i ≠ j) : (l.set i x).getD j dfl = l.getD j dfl := by
  by_cases hj : j < l.length
  · rw [List.getD_eq_getElem _ _ (by simpa using hj), List.getD_eq_getElem _ _ hj]
    exact List.getElem_set_ne h (by simpa using hj)
  · rw [List.getD_eq_default _ _ (by simpa using not_lt.mp hj),
      List.getD_eq_default _ _ (not_lt.mp hj)]

theorem getD_set_self {α : Type} (l : List α) (i : ℕ) (x : α) (dfl : α)
    (h : i < l.length) : (l.set i x).getD i dfl = x := by
  rw [List.getD_eq_getElem _ _ (by simpa using h)]
  exact List.getElem_set_self (by simpa using h)

theorem getD_replicate_self {α : Type} (n k : ℕ) (x : α) :
    (List.replicate n x).getD k x = x := by
  by_cases hk : k < n
  · rw [List.getD_eq_getElem _ _ (by simpa using hk)]
    exact List.getElem_replicate x (by simpa using hk)
  · rw [List.getD_eq_default _ _ (by simpa using not_lt.mp hk)]

theorem seg_eq_of_pointwise {α : Type} (l1 l2 : List α) (a b : ℕ) (dfl : α)
    (h1 : b ≤ l1.length) (h2 : b ≤ l2.length)
    (hp : ∀ j, a ≤ j → j < b → l1.getD j dfl = l2.getD j dfl) :
    seg l1 a b = seg l2 a b := by
  apply List.ext_getElem
  · rw [seg_length _ _ _ h1, seg_length _ _ _ h2]
  · intro k hk1 hk2
    rw [seg_length _ _ _ h1] at hk1
    have e1 := getD_seg l1 a b k dfl hk1 h1
    have e2 := getD_seg l2 a b k dfl hk1 h2
    rw [List.getD_eq_getElem _ _ (by rw [seg_length _ _ _ h1]; exact hk1)] at e1
    rw [List.getD_eq_getElem _ _ (by rw [seg_length _ _ _ h2]; exact hk1)] at e2
    rw [e1, e2]
    exact hp (a + k) (by omega) (by omega)

theorem seg_singleton {α : Type} (l : List α) (a : ℕ) (dfl : α)
    (h : a < l.length) : seg l a (a + 1) = [l.getD a dfl] := by
  apply List.ext_getElem
  · rw [seg_length _ _ _ (by omega)]; simp
  · intro k hk1 hk2
    rw [seg_length _ _ _ (by omega)] at hk1
    have hk0 : k = 0 := by omega
    subst hk0
    rw [getElem_seg l a (a + 1) 0 (by omega) (by omega) _ (by omega)]
    rw [List.getD_eq_getElem _ _ h]
    simp

theorem seg_append {α : Type} (l : List α) (a c b : ℕ) (hac : a ≤ c)
    (hcb : c ≤ b) (_hb : b ≤ l.length) :
    seg l a c ++ seg l c b = seg l a b := by
  have hsum : b - a = (c - a) + (b - c) := by omega
  have hdrop : (l.drop a).drop (c - a) = l.drop c := by
    rw [List.drop_drop]
    congr 1
    omega
  simp only [seg]
  rw [hsum, List.take_add, hdrop]

theorem getD_take {α : Type} (l : List α) (n j : ℕ) (dfl : α) (hj : j < n)
    (hl : j < l.length) : (l.take n).getD j dfl = l.getD j dfl := by
  rw [List.getD_eq_getElem _ _ (by simp; omega), List.getD_eq_getElem _ _ hl]
  simp

theorem getD_drop {α : Type} (l : List α) (n k : ℕ) (dfl : α) :
    (l.drop n).getD k dfl = l.getD (n + k) dfl := by
  by_cases h : n + k < l.length
  · rw [List.getD_eq_getElem _ _ (by simp; omega), List.getD_eq_getElem _ _ h]
    simp
  · rw [List.getD_eq_default _ _ (by simp; omega), List.getD_eq_default _ _ (by omega)]

theorem eq_seg_of_getD {α : Type} (L l2 : List α) (a b : ℕ) (dfl : α)
    (hb : b ≤ l2.length) (hL : L.length = b - a)
    (hp : ∀ k, k < b - a → L.getD k dfl = l2.getD (a + k) dfl) :
    L = seg l2 a b := by
  apply List.ext_getElem
  · rw [hL, seg_length _ _ _ hb]
  · intro k hk1 hk2
    rw [hL] at hk1
    have := hp k hk1
    rw [List.getD_eq_getElem _ _ (by omega), List.getD_eq_getElem _ _ (by omega)]
      at this
    rw [this, getElem_seg l2 a b k hk1 hb _ (by omega)]

theorem set_getD_id {α : Type} (l : List α) (n : ℕ) (dfl : α) :
    l.set n (l.getD n dfl) = l := by
  apply List.ext_getElem
  · simp
  · intro k hk1 hk2
    by_cases h : n = k
    · subst h
      rw [List.getElem_set_self (by simpa using hk1),
        List.getD_eq_getElem _ _ hk2]
    · exact List.getElem_set_ne h _

theorem perm_exchange {α : Type} (x y : α) (M T : List α) :
    List.Perm (x :: (M ++ y :: T)) (y :: (M ++ x :: T)) := by
  refine ((List.perm_middle).cons x).trans ?_
  refine (List.Perm.swap y x (M ++ T)).trans ?_
  exact (List.perm_middle.symm).cons y

/-! ### Facts about `listSwap` -/

theorem listSwap_length {α : Type} (l : List α) (i j : ℕ) (dfl : α) :
    (listSwap l i j dfl).length = l.length := by
  simp [listSwap]

theorem listSwap_getD_ne {α : Type} (l : List α) (i j k : ℕ) (dfl : α)
    (h1 : k ≠ i) (h2 : k ≠ j) :
    (listSwap l i j dfl).getD k dfl = l.getD k dfl := by
  rw [listSwap, getD_set_ne _ _ _ _ _ (by omega), getD_set_ne _ _ _ _ _ (by omega)]

theorem listSwap_getD_left {α : Type} (l : List α) (i j : ℕ) (dfl : α)
    (hi : i < l.length) (hj : j < l.length) :
    (listSwap l i j dfl).getD i dfl = l.getD j dfl := by
  by_cases h : i = j
  · subst h
    rw [listSwap, getD_set_self _ _ _ _ (by simpa using hi)]
  · rw [listSwap, getD_set_ne _ _ _ _ _ (by omega),
      getD_set_self _ _ _ _ hi]

theorem listSwap_getD_right {α : Type} (l : List α) (i j : ℕ) (dfl : α)
    (hj : j < l.length) :
    (listSwap l i j dfl).getD j dfl = l.getD i dfl := by
  rw [listSwap, getD_set_self _ _ _ _ (by simpa using hj)]

theorem listSwap_seg_perm {α : Type} (data : List α) (l i u : ℕ) (dfl : α)
    (hli : l ≤ i) (hiu : i < u) (hu : u ≤ data.length) :
    List.Perm (seg (listSwap data l i dfl) l u) (seg data l u) := by
  rcases eq_or_lt_of_le hli with h | h
  · subst h
    rw [listSwap, set_getD_id, set_getD_id]
  · have hlen : (listSwap data l i dfl).length = data.length :=
      listSwap_length _ _ _ _
    have e1 : seg (listSwap data l i dfl) l u =
        [data.getD i dfl] ++ seg data (l + 1) i ++ [data.getD l dfl]
          ++ seg data (i + 1) u := by
      rw [← seg_append (listSwap data l i dfl) l (l + 1) u (by omega) (by omega)
          (by omega),
        ← seg_append (listSwap data l i dfl) (l + 1) i u (by omega) (by omega)
          (by omega),
        ← seg_append (listSwap data l i dfl) i (i + 1) u (by omega) (by omega)
          (by omega)]
      rw [seg_singleton _ _ dfl (by omega), seg_singleton _ _ dfl (by omega)]
      rw [listSwap_getD_left _ _ _ _ (by omega) (by omega),
        listSwap_getD_right _ _ _ _ (by omega)]
      rw [seg_eq_of_pointwise (listSwap data l i dfl) data (l + 1) i dfl
          (by omega) (by omega)
          (fun j hj1 hj2 => listSwap_getD_ne _ _ _ _ _ (by omega) (by omega)),
        seg_eq_of_pointwise (listSwap data l i dfl) data (i + 1) u dfl
          (by omega) (by omega)
          (fun j hj1 hj2 => listSwap_getD_ne _ _ _ _ _ (by omega) (by omega))]
      simp [List.append_assoc]
    have e2 : seg data l u =
        [data.getD l dfl] ++ seg data (l + 1) i ++ [data.getD i dfl]
          ++ seg data (i + 1) u := by
      rw [← seg_append data l (l + 1) u (by omega) (by omega) (by omega),
        ← seg_append data (l + 1) i u (by omega) (by omega) (by omega),
        ← seg_append data i (i + 1) u (by omega) (by omega) (by omega)]
      rw [seg_singleton _ _ dfl (by omega), seg_singleton _ _ dfl (by omega)]
      simp [List.append_assoc]
    rw [e1, e2]
    simp only [List.append_assoc, List.singleton_append, List.cons_append]
    exact perm_exchange _ _ _ _

/-! ### Facts about `nthElementRange` and `partitionRange` -/

instance {α : Type} (d : α → α → ℚ) (vp : α) : IsTotal α (distCmp d vp) :=
  ⟨fun a b => le_total (d vp a) (d vp b)⟩

instance {α : Type} (d : α → α → ℚ) (vp : α) : IsTrans α (distCmp d vp) :=
  ⟨fun _ _ _ hab hbc => le_trans hab hbc⟩

instance {α : Type} (d : α → α → ℚ) (vp : α) : IsRefl α (distCmp d vp) :=
  ⟨fun a => le_refl (d vp a)⟩

theorem sorted_getD_mono {α : Type} (r : α → α → Prop) [DecidableRel r]
    [IsRefl α r] (L : List α) (hL : L.Sorted r) (i j : ℕ) (dfl : α)
    (hij : i ≤ j) (hj : j < L.length) : r (L.getD i dfl) (L.getD j dfl) := by
  rw [List.getD_eq_getElem _ _ (by omega), List.getD_eq_getElem _ _ hj]
  have := hL.rel_get_of_le (a := ⟨i, by omega⟩) (b := ⟨j, hj⟩) (by simpa using hij)
  simpa using this

theorem nthElementRange_length {α : Type} (d : α → α → ℚ) (vp : α)
    (l : List α) (lo hi : ℕ) (hlo : lo ≤ hi) (hhi : hi ≤ l.length) :
    (nthElementRange d vp l lo hi).length = l.length := by
  have hs : (List.insertionSort (distCmp d vp) ((l.drop lo).take (hi - lo))).length
      = hi - lo := by
    rw [(List.perm_insertionSort (distCmp d vp) _).length_eq]
    simp only [List.length_take, List.length_drop]
    omega
  simp only [nthElementRange, List.length_append, List.length_take,
    List.length_drop, hs]
  omega

theorem nthElementRange_getD_lt {α : Type} (d : α → α → ℚ) (vp : α)
    (l : List α) (lo hi j : ℕ) (dfl : α) (hj : j < lo) (hlo : lo ≤ hi)
    (hhi : hi ≤ l.length) :
    (nthElementRange d vp l lo hi).getD j dfl = l.getD j dfl := by
  have ht : (l.take lo).length = lo := by simp; omega
  rw [nthElementRange, List.append_assoc,
    List.getD_append _ _ _ _ (by rw [ht]; omega), getD_take _ _ _ _ hj (by omega)]

theorem nthElementRange_getD_ge {α : Type} (d : α → α → ℚ) (vp : α)
    (l : List α) (lo hi j : ℕ) (dfl : α) (hj : hi ≤ j) (hlo : lo ≤ hi)
    (hhi : hi ≤ l.length) :
    (nthElementRange d vp l lo hi).getD j dfl = l.getD j dfl := by
  have hs : (List.insertionSort (distCmp d vp) ((l.drop lo).take (hi - lo))).length
      = hi - lo := by
    rw [(List.perm_insertionSort (distCmp d vp) _).length_eq]
    simp only [List.length_take, List.length_drop]
    omega
  have ht : (l.take lo).length = lo := by simp; omega
  have hfront : (l.take lo ++
      List.insertionSort (distCmp d vp) ((l.drop lo).take (hi - lo))).length
      = hi := by
    rw [List.length_append, ht, hs]; omega
  rw [nthElementRange, List.getD_append_right _ _ _ _ (by rw [hfront]; omega),
    hfront, getD_drop]
  congr 1
  omega

theorem nthElementRange_getD_mid {α : Type} (d : α → α → ℚ) (vp : α)
    (l : List α) (lo hi j : ℕ) (dfl : α) (hj1 : lo ≤ j) (hj2 : j < hi)
    (hhi : hi ≤ l.length) :
    (nthElementRange d vp l lo hi).getD j dfl =
      (List.insertionSort (distCmp d vp) (seg l lo hi)).getD (j - lo) dfl := by
  have hs : (List.insertionSort (distCmp d vp) ((l.drop lo).take (hi - lo))).length
      = hi - lo := by
    rw [(List.perm_insertionSort (distCmp d vp) _).length_eq]
    simp only [List.length_take, List.length_drop]
    omega
  have ht : (l.take lo).length = lo := by simp; omega
  have hseg : (l.drop lo).take (hi - lo) = seg l lo hi := rfl
  rw [nthElementRange, List.append_assoc, List.getD_append_right _ _ _ _
      (by rw [ht]; omega), ht,
    List.getD_append _ _ _ _ (by rw [hs]; omega), hseg]

theorem nthElementRange_seg {α : Type} (d : α → α → ℚ) (vp : α)
    (l : List α) (lo hi : ℕ) (dfl : α) (hlo : lo ≤ hi) (hhi : hi ≤ l.length) :
    seg (nthElementRange d vp l lo hi) lo hi =
      List.insertionSort (distCmp d vp) (seg l lo hi) := by
  symm
  apply eq_seg_of_getD _ _ _ _ dfl
  · rw [nthElementRange_length d vp l lo hi hlo hhi]; exact hhi
  · rw [(List.perm_insertionSort (distCmp d vp) _).length_eq,
      seg_length _ _ _ hhi]
  · intro k hk
    rw [nthElementRange_getD_mid d vp l lo hi (lo + k) dfl (by omega) (by omega)
      hhi]
    congr 1
    omega

/-- The partitioned segment is sorted by distance to the element left at
`lower`, which is the vantage point. -/
theorem partitionRange_sorted {α : Type} (d : α → α → ℚ) (dfl : α)
    (data : List α) (l u j k : ℕ) (hl : l + 2 ≤ u) (hu : u ≤ data.length)
    (hj : l + 1 ≤ j) (hjk : j ≤ k) (hk : k < u) :
    d ((partitionRange d dfl data l u).getD l dfl)
        ((partitionRange d dfl data l u).getD j dfl) ≤
      d ((partitionRange d dfl data l u).getD l dfl)
        ((partitionRange d dfl data l u).getD k dfl) := by
  have hlen1 : (listSwap data l (l + (u - l - 1) / 2) dfl).length = data.length :=
    listSwap_length _ _ _ _
  set data1 := listSwap data l (l + (u - l - 1) / 2) dfl with hdata1
  set vp := data1.getD l dfl with hvp
  have hP : partitionRange d dfl data l u = nthElementRange d vp data1 (l + 1) u :=
    rfl
  set S := List.insertionSort (distCmp d vp) (seg data1 (l + 1) u) with hS
  have hSlen : S.length = u - (l + 1) := by
    rw [hS, (List.perm_insertionSort (distCmp d vp) _).length_eq,
      seg_length _ _ _ (by omega)]
  have hSsort : S.Sorted (distCmp d vp) := List.sorted_insertionSort _ _
  have hgl : (partitionRange d dfl data l u).getD l dfl = vp := by
    rw [hP, nthElementRange_getD_lt d vp data1 (l + 1) u l dfl (by omega)
      (by omega) (by omega)]
  have hgj : (partitionRange d dfl data l u).getD j dfl = S.getD (j - (l + 1)) dfl := by
    rw [hP, nthElementRange_getD_mid d vp data1 (l + 1) u j dfl (by omega)
      (by omega) (by omega)]
  have hgk : (partitionRange d dfl data l u).getD k dfl = S.getD (k - (l + 1)) dfl := by
    rw [hP, nthElementRange_getD_mid d vp data1 (l + 1) u k dfl (by omega)
      (by omega) (by omega)]
  rw [hgl, hgj, hgk]
  exact sorted_getD_mono (distCmp d vp) S hSsort (j - (l + 1)) (k - (l + 1)) dfl
    (by omega) (by omega)

theorem partitionRange_length {α : Type} (d : α → α → ℚ) (dfl : α)
    (data : List α) (l u : ℕ) (hl : l + 1 ≤ u) (hu : u ≤ data.length) :
    (partitionRange d dfl data l u).length = data.length := by
  rw [partitionRange]
  rw [nthElementRange_length _ _ _ _ _ (by omega) (by rw [listSwap_length]; omega),
    listSwap_length]

theorem partitionRange_getD_out {α : Type} (d : α → α → ℚ) (dfl : α)
    (data : List α) (l u j : ℕ) (hl : l + 1 ≤ u) (hu : u ≤ data.length)
    (hj : j < l ∨ u ≤ j) :
    (partitionRange d dfl data l u).getD j dfl = data.getD j dfl := by
  have hi1 : l ≤ l + (u - l - 1) / 2 := by omega
  have hi2 : l + (u - l - 1) / 2 < u := by omega
  rw [partitionRange]
  rcases hj with hj | hj
  · rw [nthElementRange_getD_lt _ _ _ _ _ _ _ (by omega) (by omega)
      (by rw [listSwap_length]; omega)]
    exact listSwap_getD_ne _ _ _ _ _ (by omega) (by omega)
  · rw [nthElementRange_getD_ge _ _ _ _ _ _ _ (by omega) (by omega)
      (by rw [listSwap_length]; omega)]
    exact listSwap_getD_ne _ _ _ _ _ (by omega) (by omega)

theorem partitionRange_seg_perm {α : Type} (d : α → α → ℚ) (dfl : α)
    (data : List α) (l u : ℕ) (hl : l + 2 ≤ u) (hu : u ≤ data.length) :
    List.Perm (seg (partitionRange d dfl data l u) l u) (seg data l u) := by
  have hlen1 : (listSwap data l (l + (u - l - 1) / 2) dfl).length = data.length :=
    listSwap_length _ _ _ _
  set data1 := listSwap data l (l + (u - l - 1) / 2) dfl with hdata1
  set vp := data1.getD l dfl with hvp
  have hP : partitionRange d dfl data l u = nthElementRange d vp data1 (l + 1) u :=
    rfl
  have hPlen : (partitionRange d dfl data l u).length = data.length :=
    partitionRange_length d dfl data l u (by omega) hu
  have h1 : seg (partitionRange d dfl data l u) l u =
      seg (partitionRange d dfl data l u) l (l + 1) ++
        seg (partitionRange d dfl data l u) (l + 1) u :=
    (seg_append _ _ _ _ (by omega) (by omega) (by omega)).symm
  have h2 : seg (partitionRange d dfl data l u) l (l + 1) = [vp] := by
    rw [seg_singleton _ _ dfl (by omega), hP,
      nthElementRange_getD_lt d vp data1 (l + 1) u l dfl (by omega) (by omega)
        (by omega)]
  have h3 : seg (partitionRange d dfl data l u) (l + 1) u =
      List.insertionSort (distCmp d vp) (seg data1 (l + 1) u) := by
    rw [hP]
    exact nthElementRange_seg d vp data1 (l + 1) u dfl (by omega) (by omega)
  have h4 : seg data1 l u = [vp] ++ seg data1 (l + 1) u := by
    rw [← seg_append data1 l (l + 1) u (by omega) (by omega) (by omega),
      seg_singleton _ _ dfl (by omega)]
  rw [h1, h2, h3]
  refine List.Perm.trans ?_ ((listSwap_seg_perm data l (l + (u - l - 1) / 2) u
    dfl (by omega) (by omega) hu))
  rw [h4]
  exact (List.perm_insertionSort (distCmp d vp) _).append_left [vp]

/-! ### Facts about `shape` and `rdepth` -/

theorem getD_cons_ge {β : Type} (x : β) (B : List β) (k : ℕ) (dfl : β)
    (hk : 1 ≤ k) : (x :: B).getD k dfl = B.getD (k - 1) dfl := by
  cases k with
  | zero => omega
  | succ k => simp

theorem getD_map_pair (f : ℕ × ℕ → ℕ × ℕ) (l : List (ℕ × ℕ)) (k : ℕ)
    (dfl : ℕ × ℕ) (hk : k < l.length) :
    (l.map f).getD k dfl = f (l.getD k dfl) := by
  rw [List.getD_eq_getElem _ _ (by simpa using hk), List.getD_eq_getElem _ _ hk]
  simp

theorem shapeF_nil (f l u : ℕ) (h : u ≤ l) : shapeF f l u = [] := by
  cases f with
  | zero => rfl
  | succ f => simp [shapeF, h]

theorem shapeF_congr : ∀ (n f g l u : ℕ), u - l ≤ n → u - l ≤ f → u - l ≤ g →
    shapeF f l u = shapeF g l u := by
  intro n
  induction n with
  | zero =>
    intro f g l u hn _ _
    rw [shapeF_nil f l u (by omega), shapeF_nil g l u (by omega)]
  | succ n ih =>
    intro f g l u hn hf hg
    by_cases h0 : u ≤ l
    · rw [shapeF_nil f l u h0, shapeF_nil g l u h0]
    · obtain ⟨f', rfl⟩ : ∃ f', f = f' + 1 := ⟨f - 1, by omega⟩
      obtain ⟨g', rfl⟩ : ∃ g', g = g' + 1 := ⟨g - 1, by omega⟩
      simp only [shapeF, if_neg h0]
      by_cases h1 : u - l = 1
      · simp [h1]
      · simp only [if_neg h1]
        rw [ih f' g' (l + 1) ((u + l) / 2) (by omega) (by omega) (by omega),
          ih f' g' ((u + l) / 2) u (by omega) (by omega) (by omega)]

theorem shapeF_eq_shape (f l u : ℕ) (h : u - l ≤ f) : shapeF f l u = shape l u :=
  shapeF_congr (u - l) f (u - l) l u (le_refl _) h (le_refl _)

theorem shape_nil (l u : ℕ) (h : u ≤ l) : shape l u = [] := by
  rw [shape]
  exact shapeF_nil _ _ _ h

theorem shape_one (l u : ℕ) (h : u - l = 1) : shape l u = [(u, 0)] := by
  rw [shape, h]
  simp [shapeF]
  omega

theorem shape_unfold (l u : ℕ) (h : l + 2 ≤ u) :
    shape l u = (u, 0) ::
      ((shape (l + 1) ((u + l) / 2) ++ shape ((u + l) / 2) u).map
        (fun p => (p.1, p.2 + 1))) := by
  obtain ⟨k, hk⟩ : ∃ k, u - l = k + 1 := ⟨u - l - 1, by omega⟩
  rw [shape, hk]
  simp only [shapeF, if_neg (by omega : ¬u ≤ l), if_neg (by omega : ¬u - l = 1)]
  rw [shapeF_eq_shape k (l + 1) ((u + l) / 2) (by omega),
    shapeF_eq_shape k ((u + l) / 2) u (by omega)]

theorem shape_length : ∀ (n l u : ℕ), u - l ≤ n → (shape l u).length = u - l := by
  intro n
  induction n with
  | zero =>
    intro l u h
    rw [shape_nil l u (by omega)]
    simp
    omega
  | succ n ih =>
    intro l u h
    by_cases h0 : u ≤ l
    · rw [shape_nil l u h0]
      simp
      omega
    · by_cases h1 : u - l = 1
      · rw [shape_one l u h1]
        simp
        omega
      · rw [shape_unfold l u (by omega)]
        simp only [List.length_cons, List.length_map, List.length_append]
        rw [ih (l + 1) ((u + l) / 2) (by omega), ih ((u + l) / 2) u (by omega)]
        omega

theorem rdepthF_nil (f l u : ℕ) (h : u ≤ l) : rdepthF f l u = 0 := by
  cases f with
  | zero => rfl
  | succ f => simp [rdepthF, h]

theorem rdepthF_congr : ∀ (n f g l u : ℕ), u - l ≤ n → u - l ≤ f → u - l ≤ g →
    rdepthF f l u = rdepthF g l u := by
  intro n
  induction n with
  | zero =>
    intro f g l u hn _ _
    rw [rdepthF_nil f l u (by omega), rdepthF_nil g l u (by omega)]
  | succ n ih =>
    intro f g l u hn hf hg
    by_cases h0 : u ≤ l
    · rw [rdepthF_nil f l u h0, rdepthF_nil g l u h0]
    · obtain ⟨f', rfl⟩ : ∃ f', f = f' + 1 := ⟨f - 1, by omega⟩
      obtain ⟨g', rfl⟩ : ∃ g', g = g' + 1 := ⟨g - 1, by omega⟩
      simp only [rdepthF, if_neg h0]
      by_cases h1 : u - l = 1
      · simp [h1]
      · simp only [if_neg h1]
        rw [ih f' g' (l + 1) ((u + l) / 2) (by omega) (by omega) (by omega),
          ih f' g' ((u + l) / 2) u (by omega) (by omega) (by omega)]

theorem rdepthF_eq_rdepth (f l u : ℕ) (h : u - l ≤ f) : rdepthF f l u = rdepth l u :=
  rdepthF_congr (u - l) f (u - l) l u (le_refl _) h (le_refl _)

theorem rdepth_one (l u : ℕ) (h : u - l = 1) : rdepth l u = 1 := by
  rw [rdepth, h]
  simp [rdepthF]
  omega

theorem rdepth_unfold (l u : ℕ) (h : l + 2 ≤ u) :
    rdepth l u = 1 + max (rdepth (l + 1) ((u + l) / 2)) (rdepth ((u + l) / 2) u) := by
  obtain ⟨k, hk⟩ : ∃ k, u - l = k + 1 := ⟨u - l - 1, by omega⟩
  rw [rdepth, hk]
  simp only [rdepthF, if_neg (by omega : ¬u ≤ l), if_neg (by omega : ¬u - l = 1)]
  rw [rdepthF_eq_rdepth k (l + 1) ((u + l) / 2) (by omega),
    rdepthF_eq_rdepth k ((u + l) / 2) u (by omega)]

theorem rdepth_pos (l u : ℕ) (h : l < u) : 1 ≤ rdepth l u := by
  by_cases h1 : u - l = 1
  · rw [rdepth_one l u h1]
  · rw [rdepth_unfold l u (by omega)]
    omega

theorem rdepth_le_size : ∀ (n l u : ℕ), u - l ≤ n → rdepth l u ≤ u - l := by
  intro n
  induction n with
  | zero =>
    intro l u h
    have h0 : u - l = 0 := by omega
    rw [rdepth, h0]
    simp [rdepthF]
  | succ n ih =>
    intro l u h
    by_cases h0 : u ≤ l
    · have hz : u - l = 0 := by omega
      rw [rdepth, hz]
      simp [rdepthF]
    · by_cases h1 : u - l = 1
      · rw [rdepth_one l u h1]
        omega
      · rw [rdepth_unfold l u (by omega)]
        have i1 := ih (l + 1) ((u + l) / 2) (by omega)
        have i2 := ih ((u + l) / 2) u (by omega)
        omega

theorem shape_len (l u : ℕ) : (shape l u).length = u - l :=
  shape_length (u - l) l u (le_refl _)

theorem shape_getD_zero (l u : ℕ) (h : l < u) :
    (shape l u).getD 0 (0, 0) = (u, 0) := by
  by_cases h1 : u - l = 1
  · rw [shape_one l u h1]
    rfl
  · rw [shape_unfold l u (by omega)]
    rfl

theorem shape_getD_left (l u k : ℕ) (h : l + 2 ≤ u) (hk1 : 1 ≤ k)
    (hkm : k < (u + l) / 2 - l) :
    (shape l u).getD k (0, 0) =
      (((shape (l + 1) ((u + l) / 2)).getD (k - 1) (0, 0)).1,
        ((shape (l + 1) ((u + l) / 2)).getD (k - 1) (0, 0)).2 + 1) := by
  rw [shape_unfold l u h, getD_cons_ge _ _ _ _ hk1]
  have hlenL : (shape (l + 1) ((u + l) / 2)).length = (u + l) / 2 - (l + 1) :=
    shape_len _ _
  have hlenR : (shape ((u + l) / 2) u).length = u - (u + l) / 2 := shape_len _ _
  rw [getD_map_pair _ _ _ _ (by rw [List.length_append, hlenL, hlenR]; omega)]
  rw [List.getD_append _ _ _ _ (by rw [hlenL]; omega)]

theorem shape_getD_right (l u k : ℕ) (h : l + 2 ≤ u) (hkm : (u + l) / 2 - l ≤ k)
    (hk : k < u - l) :
    (shape l u).getD k (0, 0) =
      (((shape ((u + l) / 2) u).getD (k - ((u + l) / 2 - l)) (0, 0)).1,
        ((shape ((u + l) / 2) u).getD (k - ((u + l) / 2 - l)) (0, 0)).2 + 1) := by
  have hm : l + 1 ≤ (u + l) / 2 := by omega
  rw [shape_unfold l u h, getD_cons_ge _ _ _ _ (by omega)]
  have hlenL : (shape (l + 1) ((u + l) / 2)).length = (u + l) / 2 - (l + 1) :=
    shape_len _ _
  have hlenR : (shape ((u + l) / 2) u).length = u - (u + l) / 2 := shape_len _ _
  rw [getD_map_pair _ _ _ _ (by rw [List.length_append, hlenL, hlenR]; omega)]
  rw [List.getD_append_right _ _ _ _ (by rw [hlenL]; omega), hlenL]
  have hidx : k - 1 - ((u + l) / 2 - (l + 1)) = k - ((u + l) / 2 - l) := by omega
  rw [hidx]

/-- The structural facts about one entry of `shape l u`: its range is
non-trivial and within `[l, u)`, its level is below the tree depth, the
root entry covers the whole range, and the entries at the median and
`lower+1` positions (the children the builder records) carry exactly the
child ranges at the next level. -/
theorem shape_spec : ∀ (n l u k e v : ℕ), u - l ≤ n → k < u - l →
    (shape l u).getD k (0, 0) = (e, v) →
    l + k < e ∧ e ≤ u ∧ v < rdepth l u ∧ (k = 0 → e = u ∧ v = 0) ∧
    (l + k + 2 ≤ e →
      (shape l u).getD ((l + k + e) / 2 - l) (0, 0) = (e, v + 1) ∧
      ((l + k + e) / 2 ≠ l + k + 1 →
        (shape l u).getD (k + 1) (0, 0) = ((l + k + e) / 2, v + 1))) := by
  intro n
  induction n with
  | zero => intro l u k e v hn hk _; omega
  | succ n ih =>
    intro l u k e v hn hk hgd
    by_cases h1 : u - l = 1
    · have hk0 : k = 0 := by omega
      subst hk0
      rw [shape_one l u h1] at hgd
      have he : u = e := congrArg Prod.fst hgd
      have hv : 0 = v := congrArg Prod.snd hgd
      subst he
      subst hv
      refine ⟨by omega, by omega, ?_, fun _ => ⟨rfl, rfl⟩, by omega⟩
      rw [rdepth_one l u h1]
      omega
    · have h2 : l + 2 ≤ u := by omega
      set m := (u + l) / 2 with hm
      have hm1 : l + 1 ≤ m := by omega
      have hm2 : m < u := by omega
      have hdep := rdepth_unfold l u h2
      rw [← hm] at hdep
      have hmaxL : rdepth (l + 1) m ≤ max (rdepth (l + 1) m) (rdepth m u) :=
        le_max_left _ _
      have hmaxR : rdepth m u ≤ max (rdepth (l + 1) m) (rdepth m u) :=
        le_max_right _ _
      rcases Nat.lt_or_ge k 1 with hk0 | hk1
      · -- k = 0 : the root entry
        have hk0' : k = 0 := by omega
        subst hk0'
        rw [shape_getD_zero l u (by omega)] at hgd
        have he : u = e := congrArg Prod.fst hgd
        have hv : (0 : ℕ) = v := congrArg Prod.snd hgd
        subst he
        subst hv
        refine ⟨by omega, by omega, by omega, fun _ => ⟨rfl, rfl⟩, ?_⟩
        intro _
        have hmid : (l + 0 + u) / 2 = m := by rw [hm]; congr 1; omega
        constructor
        · rw [hmid]
          rw [shape_getD_right l u (m - l) h2 (by omega) (by omega)]
          have h0 : m - l - (m - l) = 0 := by omega
          rw [h0, shape_getD_zero m u (by omega)]
        · intro hne
          rw [hmid] at hne ⊢
          have hml : l + 1 < m := by omega
          rw [shape_getD_left l u 1 h2 (by omega) (by omega)]
          have h0 : (1 : ℕ) - 1 = 0 := rfl
          rw [h0, shape_getD_zero (l + 1) m (by omega)]
      · rcases Nat.lt_or_ge k (m - l) with hkm | hkm
        · -- the entry lies in the left child's shape
          rw [shape_getD_left l u k h2 hk1 (by omega)] at hgd
          have he : ((shape (l + 1) m).getD (k - 1) (0, 0)).1 = e :=
            congrArg Prod.fst hgd
          have hv : ((shape (l + 1) m).getD (k - 1) (0, 0)).2 + 1 = v :=
            congrArg Prod.snd hgd
          set v' := ((shape (l + 1) m).getD (k - 1) (0, 0)).2 with hv'
          have hq : (shape (l + 1) m).getD (k - 1) (0, 0) = (e, v') := by
            rw [← he]
          have IH := ih (l + 1) m (k - 1) e v' (by omega) (by omega) hq
          obtain ⟨i1, i2, i3, _, i5⟩ := IH
          have hs : l + 1 + (k - 1) = l + k := by omega
          rw [hs] at i1 i5
          refine ⟨i1, by omega, by omega, by omega, ?_⟩
          intro hcond
          obtain ⟨c1, c2⟩ := i5 hcond
          have hmlt : (l + k + e) / 2 < e := by omega
          have hmge : l + k + 1 ≤ (l + k + e) / 2 := by omega
          constructor
          · rw [shape_getD_left l u ((l + k + e) / 2 - l) h2 (by omega) (by omega)]
            have hpos : (l + k + e) / 2 - l - 1 = (l + k + e) / 2 - (l + 1) := by
              omega
            rw [hpos, c1]
            simp [Prod.ext_iff]
            omega
          · intro hne
            rw [shape_getD_left l u (k + 1) h2 (by omega) (by omega)]
            have hpos : k + 1 - 1 = k - 1 + 1 := by omega
            rw [hpos, c2 hne]
            simp [Prod.ext_iff]
            omega
        · -- the entry lies in the right child's shape
          rw [shape_getD_right l u k h2 hkm (by omega)] at hgd
          have he : ((shape m u).getD (k - (m - l)) (0, 0)).1 = e :=
            congrArg Prod.fst hgd
          have hv : ((shape m u).getD (k - (m - l)) (0, 0)).2 + 1 = v :=
            congrArg Prod.snd hgd
          set v' := ((shape m u).getD (k - (m - l)) (0, 0)).2 with hv'
          have hq : (shape m u).getD (k - (m - l)) (0, 0) = (e, v') := by
            rw [← he]
          have IH := ih m u (k - (m - l)) e v' (by omega) (by omega) hq
          obtain ⟨i1, i2, i3, _, i5⟩ := IH
          have hs : m + (k - (m - l)) = l + k := by omega
          rw [hs] at i1 i5
          refine ⟨i1, by omega, by omega, by omega, ?_⟩
          intro hcond
          obtain ⟨c1, c2⟩ := i5 hcond
          have hmlt : (l + k + e) / 2 < e := by omega
          have hmge : l + k + 1 ≤ (l + k + e) / 2 := by omega
          constructor
          · rw [shape_getD_right l u ((l + k + e) / 2 - l) h2 (by omega) (by omega)]
            have hpos : (l + k + e) / 2 - l - (m - l) = (l + k + e) / 2 - m := by
              omega
            rw [hpos, c1]
            simp [Prod.ext_iff]
            omega
          · intro hne
            rw [shape_getD_right l u (k + 1) h2 (by omega) (by omega)]
            have hpos : k + 1 - (m - l) = k - (m - l) + 1 := by omega
            rw [hpos, c2 hne]
            simp [Prod.ext_iff]
            omega

/-! ### Facts about `buildRange` -/

theorem getD_mem_seg {α : Type} (l : List α) (a b j : ℕ) (dfl : α)
    (hj1 : a ≤ j) (hj2 : j < b) (hb : b ≤ l.length) :
    l.getD j dfl ∈ seg l a b := by
  rw [List.mem_iff_getElem]
  refine ⟨j - a, by rw [seg_length _ _ _ hb]; omega, ?_⟩
  rw [getElem_seg l a b (j - a) (by omega) hb _ (by omega)]
  rw [List.getD_eq_getElem _ _ (by omega)]
  congr 1
  omega

theorem mem_seg_imp {α : Type} (l : List α) (a b : ℕ) (dfl : α) (x : α)
    (h : x ∈ seg l a b) (hb : b ≤ l.length) :
    ∃ j, a ≤ j ∧ j < b ∧ l.getD j dfl = x := by
  rw [List.mem_iff_getElem] at h
  obtain ⟨k, hk, hkx⟩ := h
  rw [seg_length _ _ _ hb] at hk
  refine ⟨a + k, by omega, by omega, ?_⟩
  rw [List.getD_eq_getElem _ _ (by omega)]
  rw [getElem_seg l a b k hk hb (by rw [seg_length _ _ _ hb]; omega) (by omega)]
    at hkx
  exact hkx

theorem buildRange_nil {α : Type} (d : α → α → ℚ) (dfl : α) (data : List α)
    (l u : ℕ) (h : u ≤ l) : buildRange d dfl data l u = (data, []) := by
  rw [buildRange]
  simp [h]

theorem buildRange_one {α : Type} (d : α → α → ℚ) (dfl : α) (data : List α)
    (l u : ℕ) (h : u - l = 1) :
    buildRange d dfl data l u = (data, [{ defaultNode with index := (l : ℤ) }]) := by
  rw [buildRange]
  rw [dif_neg (by omega : ¬u ≤ l), dif_pos h]

theorem buildRange_step {α : Type} (d : α → α → ℚ) (dfl : α) (data : List α)
    (l u : ℕ) (h : l + 2 ≤ u) :
    buildRange d dfl data l u =
      ((buildRange d dfl
          (buildRange d dfl (partitionRange d dfl data l u) (l + 1)
            ((u + l) / 2)).1 ((u + l) / 2) u).1,
        internalNode d dfl (partitionRange d dfl data l u) l u ::
          ((buildRange d dfl (partitionRange d dfl data l u) (l + 1)
              ((u + l) / 2)).2 ++
            (buildRange d dfl
              (buildRange d dfl (partitionRange d dfl data l u) (l + 1)
                ((u + l) / 2)).1 ((u + l) / 2) u).2)) := by
  rw [buildRange]
  rw [dif_neg (by omega : ¬u ≤ l), dif_neg (by omega : ¬u - l = 1)]

/-- Master structural lemma for the builder, by strong induction on the
range size: lengths, the frame property outside `[l, u)`, permutation of
the segment, and — for every slot of the range — the recorded `index`,
the leaf/internal node fields, and the median-partition invariant relating
every point of the two child sub-ranges to the recorded `threshold`. -/
theorem buildRange_spec {α : Type} (d : α → α → ℚ) (dfl : α) :
    ∀ (n : ℕ) (data : List α) (l u : ℕ) (pts : List α) (ns : List CUDA_VPNode),
    u - l ≤ n → u ≤ data.length → buildRange d dfl data l u = (pts, ns) →
    pts.length = data.length ∧
    (∀ j, j < l ∨ u ≤ j → pts.getD j dfl = data.getD j dfl) ∧
    ns.length = u - l ∧
    List.Perm (seg pts l u) (seg data l u) ∧
    (∀ k e v, k < u - l → (shape l u).getD k (0, 0) = (e, v) →
      (ns.getD k defaultNode).index = ((l + k : ℕ) : ℤ) ∧
      (e = l + k + 1 →
        ns.getD k defaultNode = { defaultNode with index := ((l + k : ℕ) : ℤ) }) ∧
      (l + k + 2 ≤ e →
        (ns.getD k defaultNode).right = (((l + k + e) / 2 : ℕ) : ℤ) ∧
        (ns.getD k defaultNode).left =
          (if (l + k + e) / 2 = l + k + 1 then (-1 : ℤ)
            else ((l + k : ℕ) : ℤ) + 1) ∧
        (∀ j, l + k + 1 ≤ j → j < (l + k + e) / 2 →
          d (pts.getD (l + k) dfl) (pts.getD j dfl)
            ≤ (ns.getD k defaultNode).threshold) ∧
        (∀ j, (l + k + e) / 2 ≤ j → j < e →
          (ns.getD k defaultNode).threshold
            ≤ d (pts.getD (l + k) dfl) (pts.getD j dfl)))) := by
  intro n
  induction n with
  | zero =>
    intro data l u pts ns hn hu hb
    rw [buildRange_nil d dfl data l u (by omega)] at hb
    have h1 : data = pts := congrArg Prod.fst hb
    have h2 : ([] : List CUDA_VPNode) = ns := congrArg Prod.snd hb
    subst h1
    subst h2
    exact ⟨rfl, fun j _ => rfl, by simp; omega, List.Perm.refl _,
      fun k e v hk _ => by omega⟩
  | succ n ih =>
    intro data l u pts ns hn hu hb
    by_cases h0 : u ≤ l
    · rw [buildRange_nil d dfl data l u h0] at hb
      have h1 : data = pts := congrArg Prod.fst hb
      have h2 : ([] : List CUDA_VPNode) = ns := congrArg Prod.snd hb
      subst h1
      subst h2
      exact ⟨rfl, fun j _ => rfl, by simp; omega, List.Perm.refl _,
        fun k e v hk _ => by omega⟩
    · by_cases h1 : u - l = 1
      · rw [buildRange_one d dfl data l u h1] at hb
        have e1 : data = pts := congrArg Prod.fst hb
        have e2 : [{ defaultNode with index := (l : ℤ) }] = ns :=
          congrArg Prod.snd hb
        subst e1
        subst e2
        refine ⟨rfl, fun j _ => rfl, by simp; omega, List.Perm.refl _, ?_⟩
        intro k e v hk hsh
        have hk0 : k = 0 := by omega
        subst hk0
        rw [shape_one l u h1] at hsh
        have he : u = e := congrArg Prod.fst hsh
        subst he
        refine ⟨by simp, fun _ => by simp, fun hcon => by omega⟩
      · -- internal range
        have h2 : l + 2 ≤ u := by omega
        have hm1 : l + 1 ≤ (u + l) / 2 := by omega
        have hm2 : (u + l) / 2 < u := by omega
        rw [buildRange_step d dfl data l u h2] at hb
        set P := partitionRange d dfl data l u with hP
        set L := buildRange d dfl P (l + 1) ((u + l) / 2) with hL
        set R := buildRange d dfl L.1 ((u + l) / 2) u with hR
        have hPlen : P.length = data.length := by
          rw [hP]
          exact partitionRange_length d dfl data l u (by omega) hu
        have hpts : R.1 = pts := congrArg Prod.fst hb
        have hns : internalNode d dfl P l u :: (L.2 ++ R.2) = ns :=
          congrArg Prod.snd hb
        subst hpts
        subst hns
        obtain ⟨L1len, Lframe, L2len, Lperm, Lnodes⟩ :=
          ih P (l + 1) ((u + l) / 2) L.1 L.2 (by omega) (by omega)
            (by rw [← hL])
        obtain ⟨R1len, Rframe, R2len, Rperm, Rnodes⟩ :=
          ih L.1 ((u + l) / 2) u R.1 R.2 (by omega) (by omega)
            (by rw [← hR])
        have hRlen : R.1.length = data.length := by rw [R1len, L1len, hPlen]
        -- the three segment pieces
        have hseg1 : seg R.1 l (l + 1) = seg P l (l + 1) := by
          apply seg_eq_of_pointwise _ _ _ _ dfl (by omega) (by omega)
          intro j hj1 hj2
          rw [Rframe j (by omega), Lframe j (by omega)]
        have hseg2 : seg R.1 (l + 1) ((u + l) / 2) = seg L.1 (l + 1) ((u + l) / 2) := by
          apply seg_eq_of_pointwise _ _ _ _ dfl (by omega) (by omega)
          intro j hj1 hj2
          rw [Rframe j (by omega)]
        have hseg4 : seg L.1 ((u + l) / 2) u = seg P ((u + l) / 2) u := by
          apply seg_eq_of_pointwise _ _ _ _ dfl (by omega) (by omega)
          intro j hj1 hj2
          rw [Lframe j (by omega)]
        have hPperm : List.Perm (seg P l u) (seg data l u) := by
          rw [hP]
          exact partitionRange_seg_perm d dfl data l u h2 hu
        have hperm : List.Perm (seg R.1 l u) (seg data l u) := by
          refine List.Perm.trans ?_ hPperm
          rw [← seg_append R.1 l (l + 1) u (by omega) (by omega) (by omega),
            ← seg_append R.1 (l + 1) ((u + l) / 2) u (by omega) (by omega)
              (by omega),
            ← seg_append P l (l + 1) u (by omega) (by omega) (by omega),
            ← seg_append P (l + 1) ((u + l) / 2) u (by omega) (by omega)
              (by omega)]
          refine List.Perm.append (by rw [hseg1]) ?_
          refine List.Perm.append ?_ ?_
          · rw [hseg2]
            exact Lperm
          · exact Rperm.trans (by rw [hseg4])
        refine ⟨hRlen, ?_, ?_, hperm, ?_⟩
        · -- frame
          intro j hj
          rw [Rframe j (by omega), Lframe j (by omega), hP]
          exact partitionRange_getD_out d dfl data l u j (by omega) hu hj
        · -- node count
          simp only [List.length_cons, List.length_append, L2len, R2len]
          omega
        · -- per-slot node facts
          intro k e v hk hsh
          rcases Nat.lt_or_ge k 1 with hk0 | hk1
          · -- k = 0 : this range's own node
            have hk0' : k = 0 := by omega
            subst hk0'
            rw [shape_getD_zero l u (by omega)] at hsh
            have he : u = e := congrArg Prod.fst hsh
            subst he
            simp only [Nat.add_zero]
            have hnode : (internalNode d dfl P l u :: (L.2 ++ R.2)).getD 0
                defaultNode = internalNode d dfl P l u := by simp
            rw [hnode]
            have hmede : (l + u) / 2 = (u + l) / 2 := by omega
            have hvpval : R.1.getD l dfl = P.getD l dfl := by
              rw [Rframe l (by omega), Lframe l (by omega)]
            have hthr : (internalNode d dfl P l u).threshold =
                d (P.getD l dfl) (P.getD ((u + l) / 2) dfl) := rfl
            refine ⟨rfl, fun hcon => by omega, fun _ => ?_⟩
            refine ⟨?_, ?_, ?_, ?_⟩
            · rw [hmede]
              show (if u ≠ (u + l) / 2 then (((u + l) / 2 : ℕ) : ℤ) else -1) = _
              rw [if_pos (by omega : u ≠ (u + l) / 2)]
            · rw [hmede]
              show (if (u + l) / 2 ≠ l + 1 then ((l : ℤ) + 1) else -1) = _
              by_cases hml : (u + l) / 2 = l + 1
              · simp [hml]
              · simp [hml]
            · -- left sub-range: distances at most the threshold
              intro j hj1 hj2
              have hj2' : j < (u + l) / 2 := by omega
              have hmem : R.1.getD j dfl ∈ seg R.1 (l + 1) ((u + l) / 2) :=
                getD_mem_seg _ _ _ _ _ (by omega) (by omega) (by omega)
              rw [hseg2] at hmem
              have hmem2 : R.1.getD j dfl ∈ seg P (l + 1) ((u + l) / 2) :=
                Lperm.mem_iff.mp hmem
              obtain ⟨j', hj'1, hj'2, hj'⟩ :=
                mem_seg_imp P (l + 1) ((u + l) / 2) dfl _ hmem2 (by omega)
              rw [hvpval, ← hj', hthr]
              have := partitionRange_sorted d dfl data l u j' ((u + l) / 2)
                h2 hu hj'1 (by omega) (by omega)
              rw [← hP] at this
              exact this
            · -- right sub-range: distances at least the threshold
              intro j hj1 hj2
              have hj1' : (u + l) / 2 ≤ j := by omega
              have hmem : R.1.getD j dfl ∈ seg R.1 ((u + l) / 2) u :=
                getD_mem_seg _ _ _ _ _ (by omega) (by omega) (by omega)
              have hmem2 : R.1.getD j dfl ∈ seg P ((u + l) / 2) u := by
                rw [← hseg4]
                exact Rperm.mem_iff.mp hmem
              obtain ⟨j', hj'1, hj'2, hj'⟩ :=
                mem_seg_imp P ((u + l) / 2) u dfl _ hmem2 (by omega)
              rw [hvpval, ← hj', hthr]
              have := partitionRange_sorted d dfl data l u ((u + l) / 2) j'
                h2 hu (by omega) (by omega) (by omega)
              rw [← hP] at this
              exact this
          · rcases Nat.lt_or_ge k ((u + l) / 2 - l) with hkm | hkm
            · -- slot in the left child's range
              rw [shape_getD_left l u k h2 hk1 (by omega)] at hsh
              have he : ((shape (l + 1) ((u + l) / 2)).getD (k - 1) (0, 0)).1 = e :=
                congrArg Prod.fst hsh
              have hq : (shape (l + 1) ((u + l) / 2)).getD (k - 1) (0, 0)
                  = (e, ((shape (l + 1) ((u + l) / 2)).getD (k - 1) (0, 0)).2) := by
                rw [← he]
              obtain ⟨n1, n2, n3⟩ := Lnodes (k - 1) e _ (by omega) hq
              have harith : l + 1 + (k - 1) = l + k := by omega
              rw [harith] at n1 n2 n3
              have hesub : e ≤ (u + l) / 2 := by
                have := shape_spec ((u + l) / 2 - (l + 1)) (l + 1) ((u + l) / 2)
                  (k - 1) e _ (le_refl _) (by omega) hq
                omega
              have hnsk : (internalNode d dfl P l u :: (L.2 ++ R.2)).getD k
                  defaultNode = L.2.getD (k - 1) defaultNode := by
                rw [getD_cons_ge _ _ _ _ hk1,
                  List.getD_append _ _ _ _ (by rw [L2len]; omega)]
              rw [hnsk]
              refine ⟨n1, n2, ?_⟩
              intro hcon
              obtain ⟨c1, c2, c3, c4⟩ := n3 hcon
              have hmid1 : l + k + 1 ≤ (l + k + e) / 2 := by omega
              have hmid2 : (l + k + e) / 2 < e := by omega
              refine ⟨c1, c2, ?_, ?_⟩
              · intro j hj1 hj2
                rw [Rframe (l + k) (by omega), Rframe j (by omega)]
                exact c3 j hj1 hj2
              · intro j hj1 hj2
                rw [Rframe (l + k) (by omega), Rframe j (by omega)]
                exact c4 j hj1 hj2
            · -- slot in the right child's range
              rw [shape_getD_right l u k h2 hkm (by omega)] at hsh
              have he : ((shape ((u + l) / 2) u).getD (k - ((u + l) / 2 - l))
                  (0, 0)).1 = e := congrArg Prod.fst hsh
              have hq : (shape ((u + l) / 2) u).getD (k - ((u + l) / 2 - l)) (0, 0)
                  = (e, ((shape ((u + l) / 2) u).getD (k - ((u + l) / 2 - l))
                      (0, 0)).2) := by
                rw [← he]
              obtain ⟨n1, n2, n3⟩ :=
                Rnodes (k - ((u + l) / 2 - l)) e _ (by omega) hq
              have harith : (u + l) / 2 + (k - ((u + l) / 2 - l)) = l + k := by
                omega
              rw [harith] at n1 n2 n3
              have hnsk : (internalNode d dfl P l u :: (L.2 ++ R.2)).getD k
                  defaultNode = R.2.getD (k - ((u + l) / 2 - l)) defaultNode := by
                rw [getD_cons_ge _ _ _ _ hk1,
                  List.getD_append_right _ _ _ _ (by rw [L2len]; omega), L2len]
                congr 1
                omega
              rw [hnsk]
              exact ⟨n1, n2, n3⟩

/-! ### The work-list loop computes `buildRange` range by range -/

/-- Overwrite the slots `c, c+1, ...` of the node table with the given
nodes. -/
def writeNodes (nodes : List CUDA_VPNode) (c : ℕ) :
    List CUDA_VPNode → List CUDA_VPNode
  | [] => nodes
  | x :: rest => writeNodes (nodes.set c x) (c + 1) rest

theorem writeNodes_length (ns : List CUDA_VPNode) :
    ∀ (nodes : List CUDA_VPNode) (c : ℕ),
    (writeNodes nodes c ns).length = nodes.length := by
  induction ns with
  | nil => intro nodes c; rfl
  | cons x rest ih =>
    intro nodes c
    rw [writeNodes, ih]
    simp

theorem writeNodes_getD_lt (ns : List CUDA_VPNode) :
    ∀ (nodes : List CUDA_VPNode) (c k : ℕ), k < c →
    (writeNodes nodes c ns).getD k defaultNode = nodes.getD k defaultNode := by
  induction ns with
  | nil => intro nodes c k _; rfl
  | cons x rest ih =>
    intro nodes c k hk
    rw [writeNodes, ih _ _ _ (by omega), getD_set_ne _ _ _ _ _ (by omega)]

theorem writeNodes_getD_ge (ns : List CUDA_VPNode) :
    ∀ (nodes : List CUDA_VPNode) (c k : ℕ), c + ns.length ≤ k →
    (writeNodes nodes c ns).getD k defaultNode = nodes.getD k defaultNode := by
  induction ns with
  | nil => intro nodes c k _; rfl
  | cons x rest ih =>
    intro nodes c k hk
    simp only [List.length_cons] at hk
    rw [writeNodes, ih _ _ _ (by omega), getD_set_ne _ _ _ _ _ (by omega)]

theorem writeNodes_getD_mid (ns : List CUDA_VPNode) :
    ∀ (nodes : List CUDA_VPNode) (c i : ℕ), i < ns.length →
    c + ns.length ≤ nodes.length →
    (writeNodes nodes c ns).getD (c + i) defaultNode = ns.getD i defaultNode := by
  induction ns with
  | nil => intro nodes c i hi _; simp at hi
  | cons x rest ih =>
    intro nodes c i hi hlen
    simp only [List.length_cons] at hi hlen
    cases i with
    | zero =>
      rw [writeNodes, writeNodes_getD_lt rest _ _ _ (by omega)]
      simp only [Nat.add_zero]
      rw [getD_set_self _ _ _ _ (by omega)]
      rfl
    | succ i =>
      rw [writeNodes]
      have harith : c + (i + 1) = (c + 1) + i := by omega
      rw [harith, ih _ _ _ (by omega) (by simp; omega)]
      simp

theorem writeNodes_append (xs ys : List CUDA_VPNode) :
    ∀ (nodes : List CUDA_VPNode) (c : ℕ),
    writeNodes nodes c (xs ++ ys) =
      writeNodes (writeNodes nodes c xs) (c + xs.length) ys := by
  induction xs with
  | nil => intro nodes c; simp [writeNodes]
  | cons x rest ih =>
    intro nodes c
    show writeNodes (nodes.set c x) (c + 1) (rest ++ ys) = _
    rw [ih]
    have hcc : c + 1 + rest.length = c + (x :: rest).length := by
      simp only [List.length_cons]
      omega
    rw [hcc]
    rfl

theorem writeNodes_id (ns nodes : List CUDA_VPNode)
    (hlen : nodes.length = ns.length) : writeNodes nodes 0 ns = ns := by
  apply List.ext_getElem
  · rw [writeNodes_length, hlen]
  · intro k hk1 hk2
    have h1 := writeNodes_getD_mid ns nodes 0 k (by omega) (by omega)
    simp only [Nat.zero_add] at h1
    rw [List.getD_eq_getElem _ _ (by rw [writeNodes_length, hlen]; omega),
      List.getD_eq_getElem _ _ (by omega)] at h1
    exact h1

/-- Folding `buildRange` over the work list: the functional reading of the
builder's loop. -/
def buildFold {α : Type} (d : α → α → ℚ) (dfl : α) :
    List (ℕ × ℕ) → List α → List CUDA_VPNode → ℕ → List α × List CUDA_VPNode
  | [], data, nodes, _ => (data, nodes)
  | (l, u) :: rest, data, nodes, cnt =>
    buildFold d dfl rest (buildRange d dfl data l u).1
      (writeNodes nodes cnt (buildRange d dfl data l u).2) (cnt + (u - l))

/-- With fuel at least the work-list measure, fresh node slots from `cnt`
on, and in-bounds ranges, the builder's loop computes the `buildRange`
fold. -/
theorem buildLoop_eq_buildFold {α : Type} (d : α → α → ℚ) (dfl : α) :
    ∀ (fuel : ℕ) (stack : List (ℕ × ℕ)) (data : List α)
      (nodes : List CUDA_VPNode) (cnt : ℕ),
    rangesMeasure stack ≤ fuel →
    (∀ p ∈ stack, p.1 ≤ p.2 ∧ p.2 ≤ data.length) →
    (∀ k, cnt ≤ k → nodes.getD k defaultNode = defaultNode) →
    buildLoop d dfl fuel stack data nodes cnt = buildFold d dfl stack data nodes cnt := by
  intro fuel
  induction fuel with
  | zero =>
    intro stack data nodes cnt hmeas hvalid hfresh
    cases stack with
    | nil => rfl
    | cons p rest =>
      exfalso
      simp only [rangesMeasure, List.map_cons, List.sum_cons] at hmeas
      omega
  | succ fuel ih =>
    intro stack data nodes cnt hmeas hvalid hfresh
    cases stack with
    | nil => rfl
    | cons p rest =>
      obtain ⟨l, u⟩ := p
      obtain ⟨hlu, hub⟩ := hvalid (l, u) (by simp)
      simp only [rangesMeasure, List.map_cons, List.sum_cons] at hmeas
      by_cases heq : l = u
      · subst heq
        rw [buildLoop, if_pos rfl, buildFold, buildRange_nil d dfl data l l
          (le_refl _)]
        have h0 : cnt + (l - l) = cnt := by omega
        rw [h0]
        exact ih rest data nodes cnt (by simp only [rangesMeasure]; omega)
          (fun p hp => hvalid p (by simp [hp])) hfresh
      · by_cases hone : u - l ≤ 1
        · have hone' : u - l = 1 := by omega
          rw [buildLoop, if_neg heq, if_pos hone, buildFold,
            buildRange_one d dfl data l u hone']
          rw [hfresh cnt (le_refl _)]
          have hwr : writeNodes nodes cnt [{ defaultNode with index := (l : ℤ) }]
              = nodes.set cnt { defaultNode with index := (l : ℤ) } := rfl
          rw [hwr]
          have hcnt : cnt + (u - l) = cnt + 1 := by omega
          rw [hcnt]
          refine ih rest data _ (cnt + 1) (by simp only [rangesMeasure]; omega)
            (fun p hp => hvalid p (by simp [hp])) ?_
          intro k hk
          rw [getD_set_ne _ _ _ _ _ (by omega)]
          exact hfresh k (by omega)
        · -- internal range iteration
          have h2 : l + 2 ≤ u := by omega
          rw [buildLoop, if_neg heq, if_neg hone]
          set P := partitionRange d dfl data l u with hP
          have hPlen : P.length = data.length := by
            rw [hP]
            exact partitionRange_length d dfl data l u (by omega) hub
          set L := buildRange d dfl P (l + 1) ((u + l) / 2) with hL
          set R := buildRange d dfl L.1 ((u + l) / 2) u with hR
          set nodes1 := nodes.set cnt (internalNode d dfl P l u) with hn1
          obtain ⟨L1len, _, L2len, _, _⟩ :=
            buildRange_spec d dfl ((u + l) / 2 - (l + 1)) P (l + 1) ((u + l) / 2)
              L.1 L.2 (le_refl _) (by omega) (by rw [← hL])
          have hmL : rangesMeasure
              ((l + 1, (u + l) / 2) :: ((u + l) / 2, u) :: rest) ≤ fuel := by
            simp only [rangesMeasure, List.map_cons, List.sum_cons]
            omega
          have hvL : ∀ p ∈ (l + 1, (u + l) / 2) :: ((u + l) / 2, u) :: rest,
              p.1 ≤ p.2 ∧ p.2 ≤ P.length := by
            intro p hp
            simp only [List.mem_cons] at hp
            rcases hp with h | h | h
            · subst h
              exact ⟨by omega, by rw [hPlen]; omega⟩
            · subst h
              exact ⟨by omega, by rw [hPlen]; omega⟩
            · have := hvalid p (by simp [h])
              rw [hPlen]
              exact this
          have hfL : ∀ k, cnt + 1 ≤ k → nodes1.getD k defaultNode = defaultNode := by
            intro k hk
            rw [hn1, getD_set_ne _ _ _ _ _ (by omega)]
            exact hfresh k (by omega)
          rw [ih ((l + 1, (u + l) / 2) :: ((u + l) / 2, u) :: rest) P nodes1
            (cnt + 1) hmL hvL hfL]
          have step1 : buildFold d dfl
              ((l + 1, (u + l) / 2) :: ((u + l) / 2, u) :: rest) P nodes1 (cnt + 1)
              = buildFold d dfl rest R.1
                (writeNodes (writeNodes nodes1 (cnt + 1) L.2)
                  (cnt + 1 + ((u + l) / 2 - (l + 1))) R.2)
                (cnt + 1 + ((u + l) / 2 - (l + 1)) + (u - (u + l) / 2)) := rfl
          have step3 : buildFold d dfl ((l, u) :: rest) data nodes cnt
              = buildFold d dfl rest (buildRange d dfl data l u).1
                (writeNodes nodes cnt (buildRange d dfl data l u).2)
                (cnt + (u - l)) := rfl
          rw [step1, step3, buildRange_step d dfl data l u h2, ← hP, ← hL, ← hR]
          have hw : writeNodes nodes cnt
              (internalNode d dfl P l u :: (L.2 ++ R.2)) =
              writeNodes (writeNodes nodes1 (cnt + 1) L.2)
                (cnt + 1 + ((u + l) / 2 - (l + 1))) R.2 := by
            rw [writeNodes, writeNodes_append, ← hn1, L2len]
          rw [hw]
          have hc2 : cnt + 1 + ((u + l) / 2 - (l + 1)) + (u - (u + l) / 2)
              = cnt + (u - l) := by omega
          rw [hc2]

theorem buildFromPoints_eq_buildRange {α : Type} (d : α → α → ℚ) (dfl : α)
    (data : List α) :
    buildFromPoints d dfl data = buildRange d dfl data 0 data.length := by
  rw [buildFromPoints,
    buildLoop_eq_buildFold d dfl (2 * data.length + 1) [(0, data.length)] data
      (List.replicate data.length defaultNode) 0
      (by
        simp only [rangesMeasure, List.map_cons, List.sum_cons, List.map_nil,
          List.sum_nil]
        omega)
      (by
        intro p hp
        simp only [List.mem_singleton] at hp
        subst hp
        exact ⟨by omega, le_refl _⟩)
      (fun k _ => getD_replicate_self _ _ _)]
  have step : buildFold d dfl [(0, data.length)] data
      (List.replicate data.length defaultNode) 0
      = buildFold d dfl [] (buildRange d dfl data 0 data.length).1
        (writeNodes (List.replicate data.length defaultNode) 0
          (buildRange d dfl data 0 data.length).2) (0 + (data.length - 0)) := rfl
  rw [step]
  obtain ⟨_, _, hnlen, _, _⟩ :=
    buildRange_spec d dfl data.length data 0 data.length
      (buildRange d dfl data 0 data.length).1
      (buildRange d dfl data 0 data.length).2 (by omega) (le_refl _) rfl
  show ((buildRange d dfl data 0 data.length).1,
    writeNodes (List.replicate data.length defaultNode) 0
      (buildRange d dfl data 0 data.length).2) = _
  rw [writeNodes_id _ _ (by rw [hnlen]; simp)]

/-- All structural facts the search correctness proof needs about a built
tree: array lengths, the per-slot range bounds and levels from the shape of
the build recursion, the recorded node fields, and the median-partition
(tree) invariant. -/
structure GoodTable {α : Type} (N : ℕ) (d : α → α → ℚ) (dfl : α)
    (pts : List α) (nodes : List CUDA_VPNode) : Prop where
  ptsLen : pts.length = N
  nodesLen : nodes.length = N
  rootEnd : 1 ≤ N → sendN N 0 = N
  rootLev : 1 ≤ N → slevN N 0 = 0
  sLow : ∀ s, s < N → s < sendN N s
  sHigh : ∀ s, s < N → sendN N s ≤ N
  sLevLt : ∀ s, s < N → slevN N s < rdepth 0 N
  idx : ∀ s, s < N → (nodes.getD s defaultNode).index = (s : ℤ)
  leafNodeEq : ∀ s, s < N → sendN N s = s + 1 →
    nodes.getD s defaultNode = { defaultNode with index := (s : ℤ) }
  rightEq : ∀ s, s < N → s + 2 ≤ sendN N s →
    (nodes.getD s defaultNode).right = (((s + sendN N s) / 2 : ℕ) : ℤ)
  rightEnd : ∀ s, s < N → s + 2 ≤ sendN N s →
    sendN N ((s + sendN N s) / 2) = sendN N s
  rightLev : ∀ s, s < N → s + 2 ≤ sendN N s →
    slevN N ((s + sendN N s) / 2) = slevN N s + 1
  leftNone : ∀ s, s < N → s + 2 ≤ sendN N s → (s + sendN N s) / 2 = s + 1 →
    (nodes.getD s defaultNode).left = -1
  leftEq : ∀ s, s < N → s + 2 ≤ sendN N s → (s + sendN N s) / 2 ≠ s + 1 →
    (nodes.getD s defaultNode).left = (s : ℤ) + 1
  leftEnd : ∀ s, s < N → s + 2 ≤ sendN N s → (s + sendN N s) / 2 ≠ s + 1 →
    sendN N (s + 1) = (s + sendN N s) / 2
  leftLev : ∀ s, s < N → s + 2 ≤ sendN N s → (s + sendN N s) / 2 ≠ s + 1 →
    slevN N (s + 1) = slevN N s + 1
  invLeft : ∀ s, s < N → s + 2 ≤ sendN N s → ∀ j, s + 1 ≤ j →
    j < (s + sendN N s) / 2 →
    d (pts.getD s dfl) (pts.getD j dfl) ≤ (nodes.getD s defaultNode).threshold
  invRight : ∀ s, s < N → s + 2 ≤ sendN N s → ∀ j, (s + sendN N s) / 2 ≤ j →
    j < sendN N s →
    (nodes.getD s defaultNode).threshold ≤ d (pts.getD s dfl) (pts.getD j dfl)

theorem shape_getD_eta (N s : ℕ) :
    (shape 0 N).getD s (0, 0) = (sendN N s, slevN N s) := rfl

/-- The tree produced by `buildFromPoints` satisfies all the structural
facts of `GoodTable`. -/
theorem build_good {α : Type} (d : α → α → ℚ) (dfl : α) (data : List α) :
    GoodTable data.length d dfl (buildFromPoints d dfl data).1
      (buildFromPoints d dfl data).2 := by
  set N := data.length with hN
  have hBR := buildFromPoints_eq_buildRange d dfl data
  obtain ⟨hlen, _hframe, hnlen, _hperm, hnodes⟩ :=
    buildRange_spec d dfl N data 0 N (buildFromPoints d dfl data).1
      (buildFromPoints d dfl data).2 (by omega) (by omega) (by rw [← hBR])
  have hsp : ∀ s, s < N →
      s < sendN N s ∧ sendN N s ≤ N ∧ slevN N s < rdepth 0 N ∧
      (s = 0 → sendN N s = N ∧ slevN N s = 0) ∧
      (s + 2 ≤ sendN N s →
        (shape 0 N).getD ((s + sendN N s) / 2) (0, 0)
          = (sendN N s, slevN N s + 1) ∧
        ((s + sendN N s) / 2 ≠ s + 1 →
          (shape 0 N).getD (s + 1) (0, 0)
            = ((s + sendN N s) / 2, slevN N s + 1))) := by
    intro s hs
    have := shape_spec N 0 N s (sendN N s) (slevN N s) (by omega) (by omega)
      (shape_getD_eta N s)
    obtain ⟨p1, p2, p3, p4, p5⟩ := this
    refine ⟨by omega, p2, p3, fun h0 => by subst h0; exact p4 rfl, ?_⟩
    intro hint
    have h05 := p5 (by omega)
    have hz : (0 + s + sendN N s) / 2 - 0 = (s + sendN N s) / 2 := by omega
    have hz2 : (0 + s + sendN N s) / 2 = (s + sendN N s) / 2 := by omega
    obtain ⟨c1, c2⟩ := h05
    rw [hz] at c1
    rw [hz2] at c2
    constructor
    · exact c1
    · intro hne
      exact c2 (by omega)
  have hnd : ∀ s, s < N →
      ((buildFromPoints d dfl data).2.getD s defaultNode).index = (s : ℤ) ∧
      (sendN N s = s + 1 →
        (buildFromPoints d dfl data).2.getD s defaultNode
          = { defaultNode with index := (s : ℤ) }) ∧
      (s + 2 ≤ sendN N s →
        ((buildFromPoints d dfl data).2.getD s defaultNode).right
          = (((s + sendN N s) / 2 : ℕ) : ℤ) ∧
        ((buildFromPoints d dfl data).2.getD s defaultNode).left
          = (if (s + sendN N s) / 2 = s + 1 then (-1 : ℤ) else ((s : ℕ) : ℤ) + 1) ∧
        (∀ j, s + 1 ≤ j → j < (s + sendN N s) / 2 →
          d ((buildFromPoints d dfl data).1.getD s dfl)
              ((buildFromPoints d dfl data).1.getD j dfl)
            ≤ ((buildFromPoints d dfl data).2.getD s defaultNode).threshold) ∧
        (∀ j, (s + sendN N s) / 2 ≤ j → j < sendN N s →
          ((buildFromPoints d dfl data).2.getD s defaultNode).threshold
            ≤ d ((buildFromPoints d dfl data).1.getD s dfl)
                ((buildFromPoints d dfl data).1.getD j dfl))) := by
    intro s hs
    have := hnodes s (sendN N s) (slevN N s) (by omega) (shape_getD_eta N s)
    obtain ⟨q1, q2, q3⟩ := this
    have hz : (0 : ℕ) + s = s := by omega
    rw [hz] at q1 q2 q3
    exact ⟨q1, fun h => q2 (by omega), fun h => q3 h⟩
  refine ⟨hlen, by rw [hnlen]; omega, ?_, ?_, ?_, ?_, ?_, ?_, ?_, ?_, ?_, ?_,
    ?_, ?_, ?_, ?_, ?_, ?_⟩
  · intro h1
    exact ((hsp 0 (by omega)).2.2.2.1 rfl).1
  · intro h1
    exact ((hsp 0 (by omega)).2.2.2.1 rfl).2
  · intro s hs
    exact (hsp s hs).1
  · intro s hs
    exact (hsp s hs).2.1
  · intro s hs
    exact (hsp s hs).2.2.1
  · intro s hs
    exact (hnd s hs).1
  · intro s hs hleaf
    exact (hnd s hs).2.1 hleaf
  · intro s hs hint
    exact ((hnd s hs).2.2 hint).1
  · intro s hs hint
    have := ((hsp s hs).2.2.2.2 hint).1
    have h2 := congrArg Prod.fst this
    rw [shape_getD_eta] at h2
    exact h2
  · intro s hs hint
    have := ((hsp s hs).2.2.2.2 hint).1
    have h2 := congrArg Prod.snd this
    rw [shape_getD_eta] at h2
    exact h2
  · intro s hs hint hml
    have := ((hnd s hs).2.2 hint).2.1
    rw [if_pos hml] at this
    exact this
  · intro s hs hint hml
    have := ((hnd s hs).2.2 hint).2.1
    rw [if_neg hml] at this
    exact this
  · intro s hs hint hml
    have := ((hsp s hs).2.2.2.2 hint).2 hml
    have h2 := congrArg Prod.fst this
    rw [shape_getD_eta] at h2
    exact h2
  · intro s hs hint hml
    have := ((hsp s hs).2.2.2.2 hint).2 hml
    have h2 := congrArg Prod.snd this
    rw [shape_getD_eta] at h2
    exact h2
  · intro s hs hint j hj1 hj2
    exact ((hnd s hs).2.2 hint).2.2.1 j hj1 hj2
  · intro s hs hint j hj1 hj2
    exact ((hnd s hs).2.2 hint).2.2.2 j hj1 hj2

theorem seg_full {α : Type} (l : List α) : seg l 0 l.length = l := by
  simp [seg]

/-- The built point array is a permutation of the input point collection. -/
theorem build_perm {α : Type} (d : α → α → ℚ) (dfl : α) (data : List α) :
    List.Perm (buildFromPoints d dfl data).1 data := by
  have hBR := buildFromPoints_eq_buildRange d dfl data
  obtain ⟨hlen, _, _, hperm, _⟩ :=
    buildRange_spec d dfl data.length data 0 data.length
      (buildFromPoints d dfl data).1 (buildFromPoints d dfl data).2
      (by omega) (le_refl _) (by rw [← hBR])
  rw [seg_full data] at hperm
  have : seg (buildFromPoints d dfl data).1 0 data.length
      = (buildFromPoints d dfl data).1 := by
    rw [← hlen]
    exact seg_full _
  rw [this] at hperm
  exact hperm

/-! ### Search-loop invariants -/

/-- A node id appearing in the traversal: `-1` or a valid slot. -/
def okId (N : ℕ) (x : ℤ) : Prop := x = -1 ∨ (0 ≤ x ∧ x.toNat < N)

/-- The number of slots of the subtree rooted at id `x` (`0` for `-1`). -/
def sizeOfId (N : ℕ) (x : ℤ) : ℕ :=
  if x = -1 then 0 else sendN N x.toNat - x.toNat

/-- Total number of slots still pending in a search state. -/
def pendSize (N : ℕ) (st : SState) : ℕ :=
  sizeOfId N st.cur + (st.stack.map (sizeOfId N)).sum

/-- Termination measure of the search loop. -/
def searchMeasure (N : ℕ) (st : SState) : ℕ :=
  3 * pendSize N st + st.stack.length + (if st.cur = -1 then 1 else 0)

/-- Slot `j` is still pending: it lies under the current node or under a
stacked node. -/
def pendIn (N : ℕ) (st : SState) (j : ℕ) : Prop :=
  (st.cur ≠ -1 ∧ st.cur.toNat ≤ j ∧ j < sendN N st.cur.toNat) ∨
  (∃ x ∈ st.stack, x ≠ -1 ∧ x.toNat ≤ j ∧ j < sendN N x.toNat)

/-- Validity invariant of the traversal (enough for termination): ids are
in range, a live current node implies a non-empty stack, and the bottom
stack entry is the `-1` sentinel. -/
structure SInvT (N : ℕ) (st : SState) : Prop where
  okCur : okId N st.cur
  okStack : ∀ e ∈ st.stack, okId N e
  curStack : st.cur ≠ -1 → st.stack ≠ []
  bottom : st.stack ≠ [] → st.stack.getLast? = some (-1)

/-- Level invariant of the traversal: the stack never grows beyond the
level of the node being expanded plus one, and each stacked entry sits at
a position bounded by its own level. -/
structure SInvL (N : ℕ) (st : SState) : Prop where
  curLev : st.cur ≠ -1 → st.stack.length ≤ slevN N st.cur.toNat + 1
  stackLev : ∀ k, k < st.stack.length → st.stack.getD k (-1) ≠ -1 →
    st.stack.length ≤ slevN N (st.stack.getD k (-1)).toNat + k + 2

/-- Correctness invariant of the traversal: `tau` equals the best distance,
the best is either untouched or a real point's distance, and every slot is
pending or already proved at distance at least `tau`. -/
structure SInvC {α : Type} (N : ℕ) (d : α → α → ℚ) (pts : List α) (q : α)
    (dfl : α) (st : SState) : Prop where
  tauBest : st.tau = st.best_dist
  bestOk : (st.best_idx = -1 ∧ st.best_dist = DBL_MAX) ∨
    (0 ≤ st.best_idx ∧ st.best_idx.toNat < N ∧
      st.best_dist = d q (pts.getD st.best_idx.toNat dfl))
  coverage : ∀ j, j < N → pendIn N st j ∨ st.tau ≤ d q (pts.getD j dfl)

/-- Complete characterization of one push phase: the new stack is some
pushed ids on top of the old stack, each pushed id is the left or the
right child, the right child is pushed when the far-side test passes and
the left when the near-side test passes. -/
theorem pushChildren_cases (node : CUDA_VPNode) (dist tau : ℚ)
    (stack : List ℤ) (hi : ℕ) :
    ∃ ps : List ℤ, (pushChildren node dist tau stack hi).1 = ps ++ stack ∧
      (ps = [] ∨ ps = [node.left] ∨ ps = [node.right] ∨
        ps = [node.left, node.right] ∨ ps = [node.right, node.left]) ∧
      (node.threshold ≤ dist + tau → node.right ∈ ps) ∧
      (dist - tau ≤ node.threshold → node.left ∈ ps) := by
  rw [pushChildren]
  by_cases h1 : dist < node.threshold
  · rw [if_pos h1]
    by_cases h2 : node.threshold ≤ dist + tau
    · rw [if_pos h2]
      by_cases h3 : dist - tau ≤ node.threshold
      · rw [if_pos h3]
        exact ⟨[node.left, node.right], rfl, by simp, fun _ => by simp,
          fun _ => by simp⟩
      · rw [if_neg h3]
        exact ⟨[node.right], rfl, by simp, fun _ => by simp,
          fun hc => absurd hc h3⟩
    · rw [if_neg h2]
      by_cases h3 : dist - tau ≤ node.threshold
      · rw [if_pos h3]
        exact ⟨[node.left], rfl, by simp, fun hc => absurd hc h2,
          fun _ => by simp⟩
      · rw [if_neg h3]
        exact ⟨[], rfl, by simp, fun hc => absurd hc h2, fun hc => absurd hc h3⟩
  · rw [if_neg h1]
    by_cases h3 : dist - tau ≤ node.threshold
    · rw [if_pos h3]
      by_cases h2 : node.threshold ≤ dist + tau
      · rw [if_pos h2]
        exact ⟨[node.right, node.left], rfl, by simp, fun _ => by simp,
          fun _ => by simp⟩
      · rw [if_neg h2]
        exact ⟨[node.left], rfl, by simp, fun hc => absurd hc h2,
          fun _ => by simp⟩
    · rw [if_neg h3]
      by_cases h2 : node.threshold ≤ dist + tau
      · rw [if_pos h2]
        exact ⟨[node.right], rfl, by simp, fun _ => by simp,
          fun hc => absurd hc h3⟩
      · rw [if_neg h2]
        exact ⟨[], rfl, by simp, fun hc => absurd hc h2, fun hc => absurd hc h3⟩

theorem updBest_tau_le (cur : ℤ) (dist : ℚ) (bi : ℤ) (bd tau : ℚ) :
    (updBest cur dist bi bd tau).2.2 ≤ tau := by
  rw [updBest]
  by_cases h : dist < tau
  · rw [if_pos h]
    exact le_of_lt h
  · rw [if_neg h]

theorem updBest_tau_le_dist (cur : ℤ) (dist : ℚ) (bi : ℤ) (bd tau : ℚ) :
    (updBest cur dist bi bd tau).2.2 ≤ dist := by
  rw [updBest]
  by_cases h : dist < tau
  · rw [if_pos h]
  · rw [if_neg h]
    exact le_of_not_lt h

/-- The distance computed when visiting the current node. -/
def distOf {α : Type} (pts : List α) (q : α) (d : α → α → ℚ) (dfl : α)
    (st : SState) : ℚ :=
  d q (pts.getD st.cur.toNat dfl)

/-- The node record of the current node. -/
def nodeOf (nodes : List CUDA_VPNode) (st : SState) : CUDA_VPNode :=
  nodes.getD st.cur.toNat defaultNode

/-- The `(best_idx, best_dist, tau)` triple after the strict-improvement
update at the current node. -/
def updOf {α : Type} (pts : List α) (q : α)
    (d : α → α → ℚ) (dfl : α) (st : SState) : ℤ × ℚ × ℚ :=
  updBest st.cur (distOf pts q d dfl st) st.best_idx st.best_dist st.tau

/-- Complete case analysis of a loop iteration that continues (returns a
next state). -/
theorem stepSearch_inl_cases {α : Type} (nodes : List CUDA_VPNode)
    (pts : List α) (q : α) (d : α → α → ℚ) (dfl : α) (st st' : SState)
    (h : stepSearch nodes pts q d dfl st = Sum.inl st') :
    ¬(st.stack = [] ∧ st.cur = -1) ∧
    ((st.cur ≠ -1 ∧
      (nodeOf nodes st).left = -1 ∧ (nodeOf nodes st).right = -1 ∧
      st' = ⟨(updOf pts q d dfl st).1, (updOf pts q d dfl st).2.1,
        (updOf pts q d dfl st).2.2, st.stack, -1, st.hi⟩) ∨
     (∃ t rest hi2, st.cur ≠ -1 ∧
      ¬((nodeOf nodes st).left = -1 ∧ (nodeOf nodes st).right = -1) ∧
      pushChildren (nodeOf nodes st) (distOf pts q d dfl st)
        (updOf pts q d dfl st).2.2 st.stack st.hi = (t :: rest, hi2) ∧
      (t :: rest).length ≤ 33 ∧
      st' = ⟨(updOf pts q d dfl st).1, (updOf pts q d dfl st).2.1,
        (updOf pts q d dfl st).2.2, rest, t, hi2⟩) ∨
     (∃ hi2, st.cur ≠ -1 ∧
      ¬((nodeOf nodes st).left = -1 ∧ (nodeOf nodes st).right = -1) ∧
      pushChildren (nodeOf nodes st) (distOf pts q d dfl st)
        (updOf pts q d dfl st).2.2 st.stack st.hi = ([], hi2) ∧
      st' = ⟨(updOf pts q d dfl st).1, (updOf pts q d dfl st).2.1,
        (updOf pts q d dfl st).2.2, [], st.cur, hi2⟩) ∨
     (∃ t rest, st.cur = -1 ∧ st.stack = t :: rest ∧
      st' = ⟨st.best_idx, st.best_dist, st.tau, rest, t, st.hi⟩)) := by
  rw [stepSearch] at h
  by_cases hexit : st.stack = [] ∧ st.cur = -1
  · rw [if_pos hexit] at h
    exact absurd h (by simp)
  · rw [if_neg hexit] at h
    refine ⟨hexit, ?_⟩
    by_cases hcur : st.cur ≠ -1
    · rw [if_pos hcur] at h
      by_cases hleaf : (nodes.getD st.cur.toNat defaultNode).left = -1 ∧
          (nodes.getD st.cur.toNat defaultNode).right = -1
      · rw [if_pos hleaf] at h
        left
        refine ⟨hcur, hleaf.1, hleaf.2, ?_⟩
        have := h
        injection this with h2
        exact h2.symm
      · rw [if_neg hleaf] at h
        by_cases hbr : (CUDA_STACK_SIZE : ℤ) <
            ((pushChildren (nodes.getD st.cur.toNat defaultNode)
              (d q (pts.getD st.cur.toNat dfl))
              (updBest st.cur (d q (pts.getD st.cur.toNat dfl)) st.best_idx
                st.best_dist st.tau).2.2 st.stack st.hi).1.length : ℤ) - 1
        · rw [if_pos hbr] at h
          exact absurd h (by simp)
        · rw [if_neg hbr] at h
          simp only [CUDA_STACK_SIZE] at hbr
          split at h
          · rename_i hps
            right
            right
            left
            refine ⟨_, hcur, hleaf, hps, ?_⟩
            injection h with h2
            exact h2.symm
          · rename_i t rest hi2 hps
            right
            left
            refine ⟨t, rest, hi2, hcur, hleaf, hps, ?_, ?_⟩
            · rw [hps] at hbr
              simp only [List.length_cons] at hbr ⊢
              omega
            · injection h with h2
              exact h2.symm
    · rw [if_neg hcur] at h
      have hcur' : st.cur = -1 := by
        by_contra hc
        exact hcur hc
      right
      right
      right
      cases hstack : st.stack with
      | nil => exact absurd ⟨hstack, hcur'⟩ hexit
      | cons t rest =>
        rw [hstack] at h
        refine ⟨t, rest, hcur', rfl, ?_⟩
        injection h with h2
        exact h2.symm

/-- Complete case analysis of a loop iteration that exits. -/
theorem stepSearch_inr_cases {α : Type} (nodes : List CUDA_VPNode)
    (pts : List α) (q : α) (d : α → α → ℚ) (dfl : α) (st : SState)
    (r : ℤ × ℚ) (h : stepSearch nodes pts q d dfl st = Sum.inr r) :
    (st.stack = [] ∧ st.cur = -1 ∧ r = (st.best_idx, st.best_dist)) ∨
    (st.cur ≠ -1 ∧ r = (-1, -1) ∧ 32 ≤ st.stack.length) := by
  rw [stepSearch] at h
  by_cases hexit : st.stack = [] ∧ st.cur = -1
  · rw [if_pos hexit] at h
    left
    refine ⟨hexit.1, hexit.2, ?_⟩
    injection h with h2
    exact h2.symm
  · rw [if_neg hexit] at h
    by_cases hcur : st.cur ≠ -1
    · rw [if_pos hcur] at h
      by_cases hleaf : (nodes.getD st.cur.toNat defaultNode).left = -1 ∧
          (nodes.getD st.cur.toNat defaultNode).right = -1
      · rw [if_pos hleaf] at h
        exact absurd h (by simp)
      · rw [if_neg hleaf] at h
        by_cases hbr : (CUDA_STACK_SIZE : ℤ) <
            ((pushChildren (nodes.getD st.cur.toNat defaultNode)
              (d q (pts.getD st.cur.toNat dfl))
              (updBest st.cur (d q (pts.getD st.cur.toNat dfl)) st.best_idx
                st.best_dist st.tau).2.2 st.stack st.hi).1.length : ℤ) - 1
        · rw [if_pos hbr] at h
          right
          refine ⟨hcur, ?_, ?_⟩
          · injection h with h2
            exact h2.symm
          · simp only [CUDA_STACK_SIZE] at hbr
            obtain ⟨ps, hps, hcases, _, _⟩ :=
              pushChildren_cases (nodes.getD st.cur.toNat defaultNode)
                (d q (pts.getD st.cur.toNat dfl))
                (updBest st.cur (d q (pts.getD st.cur.toNat dfl)) st.best_idx
                  st.best_dist st.tau).2.2 st.stack st.hi
            rw [hps] at hbr
            have hlen : ps.length ≤ 2 := by
              rcases hcases with h | h | h | h | h <;> subst h <;> simp
            simp only [List.length_append] at hbr
            omega
        · rw [if_neg hbr] at h
          split at h
          · exact absurd h (by simp)
          · exact absurd h (by simp)
    · rw [if_neg hcur] at h
      cases hstack : st.stack with
      | nil =>
        have hcur' : st.cur = -1 := by
          by_contra hc
          exact hcur hc
        exact absurd ⟨hstack, hcur'⟩ hexit
      | cons t rest =>
        rw [hstack] at h
        exact absurd h (by simp)

theorem getLast?_cons_of_ne_nil {β : Type} (x : β) (l : List β) (h : l ≠ []) :
    (x :: l).getLast? = l.getLast? := by
  have := List.getLast?_append_of_ne_nil [x] h
  simpa using this

/-- A node whose record is not a leaf record covers at least two slots. -/
theorem internal_facts {α : Type} {N : ℕ} {d : α → α → ℚ} {dfl : α}
    {pts : List α} {nodes : List CUDA_VPNode}
    (hGT : GoodTable N d dfl pts nodes) (s : ℕ) (hs : s < N)
    (hnl : ¬((nodes.getD s defaultNode).left = -1 ∧
      (nodes.getD s defaultNode).right = -1)) :
    s + 2 ≤ sendN N s := by
  have h1 := hGT.sLow s hs
  by_contra hc
  have hleaf : sendN N s = s + 1 := by omega
  have := hGT.leafNodeEq s hs hleaf
  rw [this] at hnl
  exact hnl ⟨rfl, rfl⟩

/-- Children of an internal node: well-formed ids whose subtree sizes sum
to one less than the node's own subtree size. -/
theorem children_facts {α : Type} {N : ℕ} {d : α → α → ℚ} {dfl : α}
    {pts : List α} {nodes : List CUDA_VPNode}
    (hGT : GoodTable N d dfl pts nodes) (s : ℕ) (hs : s < N)
    (hint : s + 2 ≤ sendN N s) :
    okId N (nodes.getD s defaultNode).left ∧
    okId N (nodes.getD s defaultNode).right ∧
    sizeOfId N (nodes.getD s defaultNode).left +
      sizeOfId N (nodes.getD s defaultNode).right + 1 ≤ sendN N s - s ∧
    ((nodes.getD s defaultNode).left ≠ -1 →
      slevN N (nodes.getD s defaultNode).left.toNat = slevN N s + 1) ∧
    ((nodes.getD s defaultNode).right ≠ -1 →
      slevN N (nodes.getD s defaultNode).right.toNat = slevN N s + 1) := by
  have hhigh := hGT.sHigh s hs
  have hm1 : s + 1 ≤ (s + sendN N s) / 2 := by omega
  have hm2 : (s + sendN N s) / 2 < sendN N s := by omega
  have hmN : (s + sendN N s) / 2 < N := by omega
  have hre := hGT.rightEq s hs hint
  have hrend := hGT.rightEnd s hs hint
  have hrlev := hGT.rightLev s hs hint
  have hrtn : (nodes.getD s defaultNode).right.toNat = (s + sendN N s) / 2 := by
    rw [hre]
    omega
  have hrneg : (nodes.getD s defaultNode).right ≠ -1 := by
    rw [hre]
    omega
  have hszR : sizeOfId N (nodes.getD s defaultNode).right
      = sendN N s - (s + sendN N s) / 2 := by
    rw [sizeOfId, if_neg hrneg, hrtn, hrend]
  have hokR : okId N (nodes.getD s defaultNode).right := by
    right
    rw [hre]
    constructor
    · omega
    · omega
  by_cases hml : (s + sendN N s) / 2 = s + 1
  · have hle := hGT.leftNone s hs hint hml
    refine ⟨Or.inl hle, hokR, ?_, ?_, ?_⟩
    · rw [sizeOfId, if_pos hle, hszR]
      omega
    · intro hc
      exact absurd hle hc
    · intro _
      rw [hrtn, hrlev]
  · have hle := hGT.leftEq s hs hint hml
    have hlend := hGT.leftEnd s hs hint hml
    have hllev := hGT.leftLev s hs hint hml
    have hltn : (nodes.getD s defaultNode).left.toNat = s + 1 := by
      rw [hle]
      omega
    have hlneg : (nodes.getD s defaultNode).left ≠ -1 := by
      rw [hle]
      omega
    refine ⟨?_, hokR, ?_, ?_, ?_⟩
    · right
      rw [hle]
      constructor
      · omega
      · omega
    · rw [sizeOfId, if_neg hlneg, hltn, hlend, hszR]
      omega
    · intro _
      rw [hltn, hllev]
    · intro _
      rw [hrtn, hrlev]

/-- One continuing iteration preserves the validity invariant and strictly
decreases the loop measure. -/
theorem stepT {α : Type} {N : ℕ} {d : α → α → ℚ} {dfl : α} {pts : List α}
    {nodes : List CUDA_VPNode} (q : α) (hGT : GoodTable N d dfl pts nodes)
    (st st' : SState) (hT : SInvT N st)
    (h : stepSearch nodes pts q d dfl st = Sum.inl st') :
    SInvT N st' ∧ searchMeasure N st' < searchMeasure N st := by
  obtain ⟨hexit, hcases⟩ := stepSearch_inl_cases nodes pts q d dfl st st' h
  rcases hcases with ⟨hcur, hleafL, hleafR, hst'⟩ |
    ⟨t, rest, hi2, hcur, hleaf, hps, hlen33, hst'⟩ |
    ⟨hi2, hcur, hleaf, hps, hst'⟩ | ⟨t, rest, hcur, hstack, hst'⟩
  · -- leaf visit
    subst hst'
    have hsz : 1 ≤ sizeOfId N st.cur := by
      rcases hT.okCur with hc | ⟨hc1, hc2⟩
      · exact absurd hc hcur
      · rw [sizeOfId, if_neg hcur]
        have := hGT.sLow st.cur.toNat hc2
        omega
    refine ⟨⟨Or.inl rfl, hT.okStack, fun hc => absurd rfl hc, hT.bottom⟩, ?_⟩
    simp only [searchMeasure, pendSize]
    have e1 : sizeOfId N (-1) = 0 := rfl
    have e2 : (if True then (1 : ℕ) else 0) = 1 := rfl
    have e3 : (if st.cur = -1 then (1 : ℕ) else 0) = 0 := if_neg hcur
    rw [e1, e2, e3]
    omega
  · -- internal visit: push children, pop the next node
    subst hst'
    obtain ⟨ps, hps1, hps5, hpsR, hpsL⟩ :=
      pushChildren_cases (nodeOf nodes st) (distOf pts q d dfl st)
        (updOf pts q d dfl st).2.2 st.stack st.hi
    rw [hps] at hps1
    simp only at hps1
    have hsN : st.cur.toNat < N := by
      rcases hT.okCur with hc | ⟨hc1, hc2⟩
      · exact absurd hc hcur
      · exact hc2
    have hint := internal_facts hGT st.cur.toNat hsN hleaf
    obtain ⟨hokL, hokR, hsize, _, _⟩ := children_facts hGT st.cur.toNat hsN hint
    have hstne : st.stack ≠ [] := hT.curStack hcur
    have hbot := hT.bottom hstne
    have hmemok : ∀ x ∈ t :: rest, okId N x := by
      intro x hx
      rw [hps1] at hx
      rcases List.mem_append.mp hx with hx | hx
      · rcases hps5 with h5 | h5 | h5 | h5 | h5 <;> subst h5 <;> simp at hx
        all_goals first
        | (rcases hx with hx | hx
           · subst hx
             first
             | exact hokL
             | exact hokR
           · subst hx
             first
             | exact hokL
             | exact hokR)
        | (subst hx
           first
           | exact hokL
           | exact hokR)
      · exact hT.okStack x hx
    refine ⟨⟨hmemok t (by simp), fun x hx => hmemok x (by simp [hx]), ?_, ?_⟩, ?_⟩
    · -- a live popped node leaves a non-empty stack below it
      intro ht hre
      subst hre
      have h2 := List.getLast?_append_of_ne_nil ps hstne
      rw [← hps1] at h2
      simp at h2
      rw [hbot] at h2
      injection h2 with h3
      exact ht h3
    · -- the sentinel stays at the bottom
      intro hre
      have h2 := List.getLast?_append_of_ne_nil ps hstne
      rw [← hps1] at h2
      rw [getLast?_cons_of_ne_nil t rest hre] at h2
      rw [h2, hbot]
    · -- the measure decreases
      have hsum : ((t :: rest).map (sizeOfId N)).sum
          = (ps.map (sizeOfId N)).sum + (st.stack.map (sizeOfId N)).sum := by
        rw [hps1]
        simp
      have hpssum : (ps.map (sizeOfId N)).sum ≤
          sizeOfId N (nodeOf nodes st).left + sizeOfId N (nodeOf nodes st).right := by
        rcases hps5 with h5 | h5 | h5 | h5 | h5 <;> subst h5 <;>
          first
          | (simp; omega)
          | simp
      have hpslen : ps.length ≤ 2 := by
        rcases hps5 with h5 | h5 | h5 | h5 | h5 <;> subst h5 <;> simp
      have hlen : (t :: rest).length = ps.length + st.stack.length := by
        rw [hps1]
        simp
      have hszcur : sizeOfId N st.cur = sendN N st.cur.toNat - st.cur.toNat := by
        rw [sizeOfId, if_neg hcur]
      simp only [searchMeasure, pendSize]
      simp only [List.map_cons, List.sum_cons] at hsum
      simp only [List.length_cons] at hlen
      have e3 : (if st.cur = -1 then (1 : ℕ) else 0) = 0 := if_neg hcur
      have e4 : (if t = -1 then (1 : ℕ) else 0) ≤ 1 := by
        split
        · omega
        · omega
      rw [e3]
      simp only [nodeOf] at hpssum
      have hcurlow := hGT.sLow st.cur.toNat hsN
      omega
  · -- a live node always has a non-empty stack, so the no-pop case is vacuous
    exfalso
    obtain ⟨ps, hps1, _, _, _⟩ :=
      pushChildren_cases (nodeOf nodes st) (distOf pts q d dfl st)
        (updOf pts q d dfl st).2.2 st.stack st.hi
    rw [hps] at hps1
    simp only at hps1
    have := hT.curStack hcur
    rcases List.append_eq_nil.mp hps1.symm with ⟨_, h2⟩
    exact this h2
  · -- pop from the stack
    subst hst'
    have hokt : okId N t := hT.okStack t (by rw [hstack]; simp)
    refine ⟨⟨hokt, fun x hx => hT.okStack x (by rw [hstack]; simp [hx]), ?_, ?_⟩, ?_⟩
    · intro ht hre
      subst hre
      have hbot := hT.bottom (by rw [hstack]; simp)
      rw [hstack] at hbot
      simp at hbot
      exact ht hbot
    · intro hre
      have hbot := hT.bottom (by rw [hstack]; simp)
      rw [hstack, getLast?_cons_of_ne_nil t rest hre] at hbot
      exact hbot
    · simp only [searchMeasure, pendSize, hstack]
      simp only [List.map_cons, List.sum_cons, List.length_cons]
      have e1 : sizeOfId N st.cur = 0 := by
        rw [sizeOfId, if_pos hcur]
      have e2 : (if st.cur = -1 then (1 : ℕ) else 0) = 1 := if_pos hcur
      have e4 : (if t = -1 then (1 : ℕ) else 0) ≤ 1 := by
        split
        · omega
        · omega
      rw [e1, e2]
      omega

/-- A list element read by `getD` within bounds is a member. -/
theorem getD_mem_of_lt {β : Type} (l : List β) (dflv : β) (n : ℕ)
    (h : n < l.length) : l.getD n dflv ∈ l := by
  rw [List.getD_eq_getElem l dflv h]
  exact List.getElem_mem h

/-- One continuing iteration preserves the level invariant. -/
theorem stepL {α : Type} {N : ℕ} {d : α → α → ℚ} {dfl : α} {pts : List α}
    {nodes : List CUDA_VPNode} (q : α) (hGT : GoodTable N d dfl pts nodes)
    (st st' : SState) (hT : SInvT N st) (hL : SInvL N st)
    (h : stepSearch nodes pts q d dfl st = Sum.inl st') :
    SInvL N st' := by
  obtain ⟨hexit, hcases⟩ := stepSearch_inl_cases nodes pts q d dfl st st' h
  rcases hcases with ⟨hcur, hleafL, hleafR, hst'⟩ |
    ⟨t, rest, hi2, hcur, hleaf, hps, hlen33, hst'⟩ |
    ⟨hi2, hcur, hleaf, hps, hst'⟩ | ⟨t, rest, hcur, hstack, hst'⟩
  · -- leaf visit: stack unchanged, current node cleared
    subst hst'
    exact ⟨fun hc => absurd rfl hc, hL.stackLev⟩
  · -- internal visit: push children, pop the next node
    subst hst'
    obtain ⟨ps, hps1, hps5, _, _⟩ :=
      pushChildren_cases (nodeOf nodes st) (distOf pts q d dfl st)
        (updOf pts q d dfl st).2.2 st.stack st.hi
    rw [hps] at hps1
    simp only at hps1
    have hsN : st.cur.toNat < N := by
      rcases hT.okCur with hc | ⟨hc1, hc2⟩
      · exact absurd hc hcur
      · exact hc2
    have hint := internal_facts hGT st.cur.toNat hsN hleaf
    obtain ⟨_, _, _, hlevL, hlevR⟩ := children_facts hGT st.cur.toNat hsN hint
    have hchild : ∀ x ∈ ps, x ≠ -1 →
        slevN N x.toNat = slevN N st.cur.toNat + 1 := by
      intro x hx hxne
      rcases hps5 with h5 | h5 | h5 | h5 | h5 <;> subst h5 <;> simp at hx
      all_goals first
      | (rcases hx with hx | hx
         · subst hx
           first
           | exact hlevL hxne
           | exact hlevR hxne
         · subst hx
           first
           | exact hlevL hxne
           | exact hlevR hxne)
      | (subst hx
         first
         | exact hlevL hxne
         | exact hlevR hxne)
    have hpslen : ps.length ≤ 2 := by
      rcases hps5 with h5 | h5 | h5 | h5 | h5 <;> subst h5 <;> simp
    have hcl : st.stack.length ≤ slevN N st.cur.toNat + 1 := hL.curLev hcur
    have hlen : rest.length + 1 = ps.length + st.stack.length := by
      have := congrArg List.length hps1
      simpa using this
    refine ⟨?_, ?_⟩
    · -- bound for the newly popped node
      show t ≠ -1 → rest.length ≤ slevN N t.toNat + 1
      intro ht
      by_cases hp0 : ps.length = 0
      · have hpe : ps = [] := List.length_eq_zero.mp hp0
        subst hpe
        simp only [List.nil_append] at hps1
        have h0 := hL.stackLev 0 (by rw [← hps1]; simp)
          (by rw [← hps1]; simpa using ht)
        rw [← hps1] at h0
        simp only [List.getD_cons_zero, List.length_cons] at h0
        omega
      · have htp : t = ps.getD 0 (-1) := by
          have := congrArg (fun l => List.getD l 0 (-1)) hps1
          simp only [List.getD_cons_zero] at this
          rw [this, List.getD_append _ _ _ _ (by omega)]
        have hmem : t ∈ ps := by
          rw [htp]
          exact getD_mem_of_lt ps (-1) 0 (by omega)
        have := hchild t hmem ht
        omega
    · -- bound for each remaining stack entry
      show ∀ k, k < rest.length → rest.getD k (-1) ≠ -1 →
        rest.length ≤ slevN N (rest.getD k (-1)).toNat + k + 2
      intro k hk hne
      have hek : rest.getD k (-1) = (ps ++ st.stack).getD (k + 1) (-1) := by
        rw [← hps1]
        simp only [List.getD_cons_succ]
      by_cases hkp : k + 1 < ps.length
      · have hmem : rest.getD k (-1) ∈ ps := by
          rw [hek, List.getD_append _ _ _ _ hkp]
          exact getD_mem_of_lt ps (-1) (k + 1) hkp
        have := hchild _ hmem hne
        omega
      · have hkp' : ps.length ≤ k + 1 := by omega
        have hek2 : rest.getD k (-1)
            = st.stack.getD (k + 1 - ps.length) (-1) := by
          rw [hek, List.getD_append_right _ _ _ _ hkp']
        have hib : k + 1 - ps.length < st.stack.length := by omega
        have h0 := hL.stackLev (k + 1 - ps.length) hib (by rw [← hek2]; exact hne)
        rw [← hek2] at h0
        omega
  · -- a live node always has a non-empty stack, so the no-pop case is vacuous
    exfalso
    obtain ⟨ps, hps1, _, _, _⟩ :=
      pushChildren_cases (nodeOf nodes st) (distOf pts q d dfl st)
        (updOf pts q d dfl st).2.2 st.stack st.hi
    rw [hps] at hps1
    simp only at hps1
    have := hT.curStack hcur
    rcases List.append_eq_nil.mp hps1.symm with ⟨_, h2⟩
    exact this h2
  · -- pop from the stack
    subst hst'
    refine ⟨?_, ?_⟩
    · show t ≠ -1 → rest.length ≤ slevN N t.toNat + 1
      intro ht
      have h0 := hL.stackLev 0 (by rw [hstack]; simp)
        (by rw [hstack]; simpa using ht)
      rw [hstack] at h0
      simp only [List.getD_cons_zero, List.length_cons] at h0
      omega
    · show ∀ k, k < rest.length → rest.getD k (-1) ≠ -1 →
        rest.length ≤ slevN N (rest.getD k (-1)).toNat + k + 2
      intro k hk hne
      have hek : rest.getD k (-1) = st.stack.getD (k + 1) (-1) := by
        rw [hstack]
        simp only [List.getD_cons_succ]
      have h0 := hL.stackLev (k + 1) (by rw [hstack]; simp; omega)
        (by rw [← hek]; exact hne)
      rw [← hek] at h0
      rw [hstack] at h0
      simp only [List.length_cons] at h0
      omega

/-- Case analysis of the strict-improvement update. -/
theorem updBest_cases (cur : ℤ) (dist : ℚ) (bi : ℤ) (bd tau : ℚ) :
    (dist < tau ∧ updBest cur dist bi bd tau = (cur, dist, dist)) ∨
    (tau ≤ dist ∧ updBest cur dist bi bd tau = (bi, bd, tau)) := by
  rw [updBest]
  by_cases h : dist < tau
  · left
    exact ⟨h, if_pos h⟩
  · right
    exact ⟨le_of_not_lt h, if_neg h⟩

/-- The update keeps `tau = best_dist`, and the best is either untouched or
a real point's distance. -/
theorem updOf_invC {α : Type} {N : ℕ} {d : α → α → ℚ} {dfl : α}
    {pts : List α} (q : α) (st : SState)
    (hC : SInvC N d pts q dfl st) (hcur : st.cur ≠ -1) (hok : okId N st.cur) :
    (updOf pts q d dfl st).2.2 = (updOf pts q d dfl st).2.1 ∧
    (((updOf pts q d dfl st).1 = -1 ∧ (updOf pts q d dfl st).2.1 = DBL_MAX) ∨
      (0 ≤ (updOf pts q d dfl st).1 ∧ (updOf pts q d dfl st).1.toNat < N ∧
        (updOf pts q d dfl st).2.1
          = d q (pts.getD (updOf pts q d dfl st).1.toNat dfl))) := by
  rcases hok with hok | ⟨hok1, hok2⟩
  · exact absurd hok hcur
  rcases updBest_cases st.cur (distOf pts q d dfl st) st.best_idx st.best_dist
      st.tau with ⟨hlt, heq⟩ | ⟨hge, heq⟩
  · rw [updOf, heq]
    exact ⟨rfl, Or.inr ⟨hok1, hok2, rfl⟩⟩
  · rw [updOf, heq]
    exact ⟨hC.tauBest, hC.bestOk⟩

/-- A node recorded with no right child owns a size-one range. -/
theorem leaf_record_size {α : Type} {N : ℕ} {d : α → α → ℚ} {dfl : α}
    {pts : List α} {nodes : List CUDA_VPNode}
    (hGT : GoodTable N d dfl pts nodes) (s : ℕ) (hs : s < N)
    (hR : (nodes.getD s defaultNode).right = -1) : sendN N s = s + 1 := by
  have h1 := hGT.sLow s hs
  by_contra hc
  have hint : s + 2 ≤ sendN N s := by omega
  have := hGT.rightEq s hs hint
  rw [this] at hR
  omega

/-- A slot pending through the popped head or a remaining stack entry is
pending in the popped state. -/
theorem pendIn_of_mem_newstack (N : ℕ) (bi : ℤ) (bd tau : ℚ) (t : ℤ)
    (rest : List ℤ) (hi : ℕ) (x : ℤ) (j : ℕ)
    (hmem : x = t ∨ x ∈ rest) (hxne : x ≠ -1) (hx2 : x.toNat ≤ j)
    (hx3 : j < sendN N x.toNat) :
    pendIn N ⟨bi, bd, tau, rest, t, hi⟩ j := by
  rcases hmem with hm | hm
  · subst hm
    exact Or.inl ⟨hxne, hx2, hx3⟩
  · exact Or.inr ⟨x, hm, hxne, hx2, hx3⟩

/-- One continuing iteration preserves the correctness invariant, for a
symmetric metric satisfying the triangle inequality. -/
theorem stepC {α : Type} {N : ℕ} {d : α → α → ℚ} {dfl : α} {pts : List α}
    {nodes : List CUDA_VPNode} (q : α) (hGT : GoodTable N d dfl pts nodes)
    (hsym : ∀ x y, d x y = d y x) (htri : ∀ x y z, d x z ≤ d x y + d y z)
    (st st' : SState) (hT : SInvT N st) (hC : SInvC N d pts q dfl st)
    (h : stepSearch nodes pts q d dfl st = Sum.inl st') :
    SInvC N d pts q dfl st' := by
  obtain ⟨hexit, hcases⟩ := stepSearch_inl_cases nodes pts q d dfl st st' h
  rcases hcases with ⟨hcur, hleafL, hleafR, hst'⟩ |
    ⟨t, rest, hi2, hcur, hleaf, hps, hlen33, hst'⟩ |
    ⟨hi2, hcur, hleaf, hps, hst'⟩ | ⟨t, rest, hcur, hstack, hst'⟩
  · -- leaf visit
    subst hst'
    have hsN : st.cur.toNat < N := by
      rcases hT.okCur with hc | ⟨hc1, hc2⟩
      · exact absurd hc hcur
      · exact hc2
    obtain ⟨htb, hbo⟩ := updOf_invC q st hC hcur hT.okCur
    refine ⟨htb, hbo, ?_⟩
    intro j hj
    have htau1 : (updOf pts q d dfl st).2.2 ≤ st.tau :=
      updBest_tau_le st.cur (distOf pts q d dfl st) st.best_idx st.best_dist
        st.tau
    have htau2 : (updOf pts q d dfl st).2.2 ≤ distOf pts q d dfl st :=
      updBest_tau_le_dist st.cur (distOf pts q d dfl st) st.best_idx
        st.best_dist st.tau
    rcases hC.coverage j hj with hpend | hfar
    · rcases hpend with ⟨hc1, hc2, hc3⟩ | ⟨x, hx, hx1, hx2, hx3⟩
      · have hsend : sendN N st.cur.toNat = st.cur.toNat + 1 :=
          leaf_record_size hGT st.cur.toNat hsN hleafR
        have hj' : j = st.cur.toNat := by omega
        right
        show (updOf pts q d dfl st).2.2 ≤ d q (pts.getD j dfl)
        rw [hj']
        exact htau2
      · exact Or.inl (Or.inr ⟨x, hx, hx1, hx2, hx3⟩)
    · right
      show (updOf pts q d dfl st).2.2 ≤ d q (pts.getD j dfl)
      exact le_trans htau1 hfar
  · -- internal visit: push children, pop the next node
    subst hst'
    have hsN : st.cur.toNat < N := by
      rcases hT.okCur with hc | ⟨hc1, hc2⟩
      · exact absurd hc hcur
      · exact hc2
    obtain ⟨ps, hps1, hps5, hpsR, hpsL⟩ :=
      pushChildren_cases (nodeOf nodes st) (distOf pts q d dfl st)
        (updOf pts q d dfl st).2.2 st.stack st.hi
    rw [hps] at hps1
    simp only at hps1
    obtain ⟨htb, hbo⟩ := updOf_invC q st hC hcur hT.okCur
    refine ⟨htb, hbo, ?_⟩
    intro j hj
    have htau1 : (updOf pts q d dfl st).2.2 ≤ st.tau :=
      updBest_tau_le st.cur (distOf pts q d dfl st) st.best_idx st.best_dist
        st.tau
    have htau2 : (updOf pts q d dfl st).2.2 ≤ distOf pts q d dfl st :=
      updBest_tau_le_dist st.cur (distOf pts q d dfl st) st.best_idx
        st.best_dist st.tau
    have hmem_tr : ∀ c, c ∈ ps → c = t ∨ c ∈ rest := by
      intro c hc
      have hct : c ∈ t :: rest := by
        rw [hps1]
        exact List.mem_append_left _ hc
      simpa using hct
    have hmem_st : ∀ c, c ∈ st.stack → c = t ∨ c ∈ rest := by
      intro c hc
      have hct : c ∈ t :: rest := by
        rw [hps1]
        exact List.mem_append_right _ hc
      simpa using hct
    rcases hC.coverage j hj with hpend | hfar
    · rcases hpend with ⟨hc1, hc2, hc3⟩ | ⟨x, hx, hx1, hx2, hx3⟩
      · -- j lies under the current internal node
        set s := st.cur.toNat with hsdef
        have hint := internal_facts hGT s hsN hleaf
        have hre := hGT.rightEq s hsN hint
        have hrend := hGT.rightEnd s hsN hint
        have hdq : distOf pts q d dfl st = d q (pts.getD s dfl) := rfl
        by_cases hjs : j = s
        · right
          show (updOf pts q d dfl st).2.2 ≤ d q (pts.getD j dfl)
          rw [hjs, ← hdq]
          exact htau2
        · by_cases hjm : j < (s + sendN N s) / 2
          · -- left subtree
            have hml : (s + sendN N s) / 2 ≠ s + 1 := by omega
            have hle := hGT.leftEq s hsN hint hml
            have hlend := hGT.leftEnd s hsN hint hml
            by_cases hpush : (nodes.getD s defaultNode).left ∈ ps
            · left
              refine pendIn_of_mem_newstack N _ _ _ t rest _ _ j
                (hmem_tr _ hpush) ?_ ?_ ?_
              · rw [hle]
                omega
              · rw [hle]
                omega
              · have hltn : (((s : ℤ) + 1)).toNat = s + 1 := by omega
                rw [hle, hltn, hlend]
                exact hjm
            · -- left not pushed: the near-side test failed, prune
              have hTlt : (nodes.getD s defaultNode).threshold <
                  distOf pts q d dfl st - (updOf pts q d dfl st).2.2 := by
                by_contra hcon
                push_neg at hcon
                exact hpush (hpsL hcon)
              right
              show (updOf pts q d dfl st).2.2 ≤ d q (pts.getD j dfl)
              have hinv := hGT.invLeft s hsN hint j (by omega) hjm
              have ht1 := htri q (pts.getD j dfl) (pts.getD s dfl)
              have hs1 := hsym (pts.getD j dfl) (pts.getD s dfl)
              linarith
          · -- right subtree
            have hjm' : (s + sendN N s) / 2 ≤ j := by omega
            by_cases hpush : (nodes.getD s defaultNode).right ∈ ps
            · left
              refine pendIn_of_mem_newstack N _ _ _ t rest _ _ j
                (hmem_tr _ hpush) ?_ ?_ ?_
              · rw [hre]
                omega
              · rw [hre]
                omega
              · have hrtn : ((((s + sendN N s) / 2 : ℕ) : ℤ)).toNat
                    = (s + sendN N s) / 2 := by omega
                rw [hre, hrtn, hrend]
                exact hc3
            · -- right not pushed: the far-side test failed, prune
              have hTgt : distOf pts q d dfl st + (updOf pts q d dfl st).2.2 <
                  (nodes.getD s defaultNode).threshold := by
                by_contra hcon
                push_neg at hcon
                exact hpush (hpsR hcon)
              right
              show (updOf pts q d dfl st).2.2 ≤ d q (pts.getD j dfl)
              have hinv := hGT.invRight s hsN hint j hjm' hc3
              have ht1 := htri (pts.getD s dfl) q (pts.getD j dfl)
              have hs1 := hsym (pts.getD s dfl) q
              linarith
      · exact Or.inl (pendIn_of_mem_newstack N _ _ _ t rest _ x j
          (hmem_st x hx) hx1 hx2 hx3)
    · right
      show (updOf pts q d dfl st).2.2 ≤ d q (pts.getD j dfl)
      exact le_trans htau1 hfar
  · -- a live node always has a non-empty stack, so the no-pop case is vacuous
    exfalso
    obtain ⟨ps, hps1, _, _, _⟩ :=
      pushChildren_cases (nodeOf nodes st) (distOf pts q d dfl st)
        (updOf pts q d dfl st).2.2 st.stack st.hi
    rw [hps] at hps1
    simp only at hps1
    have := hT.curStack hcur
    rcases List.append_eq_nil.mp hps1.symm with ⟨_, h2⟩
    exact this h2
  · -- pop from the stack
    subst hst'
    refine ⟨hC.tauBest, hC.bestOk, ?_⟩
    intro j hj
    rcases hC.coverage j hj with hpend | hfar
    · rcases hpend with ⟨hc1, _, _⟩ | ⟨x, hx, hx1, hx2, hx3⟩
      · exact absurd hcur hc1
      · left
        have hx' : x = t ∨ x ∈ rest := by
          rw [hstack] at hx
          simpa using hx
        exact pendIn_of_mem_newstack N st.best_idx st.best_dist st.tau t rest
          st.hi x j hx' hx1 hx2 hx3
    · exact Or.inr hfar

/-- With valid ids the loop exits within any fuel exceeding the measure. -/
theorem runSearch_total {α : Type} {N : ℕ} {d : α → α → ℚ} {dfl : α}
    {pts : List α} {nodes : List CUDA_VPNode} (q : α)
    (hGT : GoodTable N d dfl pts nodes) :
    ∀ (fuel : ℕ) (st : SState), SInvT N st → searchMeasure N st < fuel →
    ∃ r, runSearch nodes pts q d dfl fuel st = some r := by
  intro fuel
  induction fuel with
  | zero =>
    intro st _ hm
    omega
  | succ fuel ih =>
    intro st hT hm
    cases hstep : stepSearch nodes pts q d dfl st with
    | inr r =>
      refine ⟨r, ?_⟩
      rw [runSearch, hstep]
    | inl st' =>
      obtain ⟨hT', hlt⟩ := stepT q hGT st st' hT hstep
      obtain ⟨r, hr⟩ := ih st' hT' (by omega)
      refine ⟨r, ?_⟩
      rw [runSearch, hstep]
      exact hr

/-- The initial state is valid. -/
theorem initT {N : ℕ} (hN : 1 ≤ N) : SInvT N initState := by
  refine ⟨Or.inr ⟨by decide, by show (0 : ℤ).toNat < N; simpa using hN⟩, ?_, ?_, ?_⟩
  · intro e he
    simp only [initState] at he
    simp at he
    subst he
    exact Or.inl rfl
  · intro _
    simp [initState]
  · intro _
    rfl

/-- The initial state satisfies the level invariant. -/
theorem initL (N : ℕ) : SInvL N initState := by
  refine ⟨?_, ?_⟩
  · intro _
    show 1 ≤ slevN N (0 : ℤ).toNat + 1
    omega
  · intro k hk hne
    simp only [initState] at hk hne
    simp at hk
    subst hk
    simp at hne

/-- The initial state satisfies the correctness invariant. -/
theorem initC {α : Type} {N : ℕ} {d : α → α → ℚ} {dfl : α} {pts : List α}
    {nodes : List CUDA_VPNode} (q : α) (hGT : GoodTable N d dfl pts nodes)
    (hN : 1 ≤ N) : SInvC N d pts q dfl initState := by
  refine ⟨rfl, Or.inl ⟨rfl, rfl⟩, ?_⟩
  intro j hj
  left
  left
  refine ⟨by simp [initState], by simp [initState], ?_⟩
  show j < sendN N (0 : ℤ).toNat
  have := hGT.rootEnd hN
  simp only [Int.toNat_zero]
  omega

/-- The measure of the initial state on an `N`-point table. -/
theorem measure_init {α : Type} {N : ℕ} {d : α → α → ℚ} {dfl : α}
    {pts : List α} {nodes : List CUDA_VPNode}
    (hGT : GoodTable N d dfl pts nodes) (hN : 1 ≤ N) :
    searchMeasure N initState = 3 * N + 1 := by
  have h0 : sizeOfId N (0 : ℤ) = N := by
    rw [sizeOfId, if_neg (by decide)]
    have := hGT.rootEnd hN
    simp only [Int.toNat_zero]
    omega
  have h1 : sizeOfId N (-1 : ℤ) = 0 := rfl
  show 3 * (sizeOfId N 0 + ([(-1 : ℤ)].map (sizeOfId N)).sum) + 1 +
      (if (0 : ℤ) = -1 then 1 else 0) = 3 * N + 1
  rw [h0]
  simp [h1]

/-- Any exit value of the loop, from a state satisfying all three
invariants, under the depth bound: the returned distance is a lower bound
on all point distances, and the returned pair names a real point. -/
theorem runSearch_correct {α : Type} {N : ℕ} {d : α → α → ℚ} {dfl : α}
    {pts : List α} {nodes : List CUDA_VPNode} (q : α)
    (hGT : GoodTable N d dfl pts nodes)
    (hsym : ∀ x y, d x y = d y x) (htri : ∀ x y z, d x z ≤ d x y + d y z)
    (hdep : rdepth 0 N ≤ CUDA_STACK_SIZE - 1) :
    ∀ (fuel : ℕ) (st : SState) (r : ℤ × ℚ), SInvT N st → SInvL N st →
    SInvC N d pts q dfl st →
    runSearch nodes pts q d dfl fuel st = some r →
    (∀ j, j < N → r.2 ≤ d q (pts.getD j dfl)) ∧
    ((r.1 = -1 ∧ r.2 = DBL_MAX) ∨
      (0 ≤ r.1 ∧ r.1.toNat < N ∧ r.2 = d q (pts.getD r.1.toNat dfl))) := by
  intro fuel
  induction fuel with
  | zero =>
    intro st r _ _ _ h
    rw [runSearch] at h
    exact absurd h (by simp)
  | succ fuel ih =>
    intro st r hT hL hC h
    rw [runSearch] at h
    cases hstep : stepSearch nodes pts q d dfl st with
    | inl st' =>
      rw [hstep] at h
      exact ih st' r (stepT q hGT st st' hT hstep).1
        (stepL q hGT st st' hT hL hstep)
        (stepC q hGT hsym htri st st' hT hC hstep) h
    | inr r2 =>
      rw [hstep] at h
      have hr : r2 = r := by
        injection h
      subst hr
      rcases stepSearch_inr_cases nodes pts q d dfl st r2 hstep with
        ⟨hse, hce, hre⟩ | ⟨hcur, hre, hlen⟩
      · subst hre
        constructor
        · intro j hj
          rcases hC.coverage j hj with hpend | hfar
          · rcases hpend with ⟨hc1, _, _⟩ | ⟨x, hx, _, _, _⟩
            · exact absurd hce hc1
            · rw [hse] at hx
              simp at hx
          · show st.best_dist ≤ d q (pts.getD j dfl)
            rw [← hC.tauBest]
            exact hfar
        · exact hC.bestOk
      · exfalso
        have hsN : st.cur.toNat < N := by
          rcases hT.okCur with hc | ⟨hc1, hc2⟩
          · exact absurd hc hcur
          · exact hc2
        have hlev := hL.curLev hcur
        have hslev := hGT.sLevLt st.cur.toNat hsN
        simp only [CUDA_STACK_SIZE] at hdep
        omega

/-- The linear scan restricted to the first `n` indices (generalization of
`linearScan` for the induction). -/
def scanUpTo {α : Type} (d : α → α → ℚ) (q : α) (pts : List α) (dfl : α)
    (n : ℕ) : ℤ × ℚ :=
  (List.range n).foldl
    (fun b j =>
      if d q (pts.getD j dfl) < b.2 then ((j : ℤ), d q (pts.getD j dfl)) else b)
    (-1, DBL_MAX)

theorem linearScan_eq_scanUpTo {α : Type} (d : α → α → ℚ) (q : α)
    (pts : List α) (dfl : α) :
    linearScan d q pts dfl = scanUpTo d q pts dfl pts.length := rfl

theorem scanUpTo_succ {α : Type} (d : α → α → ℚ) (q : α) (pts : List α)
    (dfl : α) (n : ℕ) :
    scanUpTo d q pts dfl (n + 1)
      = if d q (pts.getD n dfl) < (scanUpTo d q pts dfl n).2
        then ((n : ℤ), d q (pts.getD n dfl)) else scanUpTo d q pts dfl n := by
  rw [scanUpTo, List.range_succ, List.foldl_append]
  rfl

theorem scanUpTo_spec {α : Type} (d : α → α → ℚ) (q : α) (pts : List α)
    (dfl : α) : ∀ n : ℕ,
    ((scanUpTo d q pts dfl n).1 = -1 ∧
        (scanUpTo d q pts dfl n).2 = DBL_MAX) ∨
      (0 ≤ (scanUpTo d q pts dfl n).1 ∧
        (scanUpTo d q pts dfl n).1.toNat < n ∧
        (scanUpTo d q pts dfl n).2
          = d q (pts.getD (scanUpTo d q pts dfl n).1.toNat dfl)) := by
  intro n
  induction n with
  | zero => exact Or.inl ⟨rfl, rfl⟩
  | succ n ih =>
    rw [scanUpTo_succ]
    by_cases hlt : d q (pts.getD n dfl) < (scanUpTo d q pts dfl n).2
    · rw [if_pos hlt]
      right
      refine ⟨by omega, by simp, by simp⟩
    · rw [if_neg hlt]
      rcases ih with ⟨h1, h2⟩ | ⟨h1, h2, h3⟩
      · exact Or.inl ⟨h1, h2⟩
      · exact Or.inr ⟨h1, by omega, h3⟩

theorem scanUpTo_min {α : Type} (d : α → α → ℚ) (q : α) (pts : List α)
    (dfl : α) : ∀ n : ℕ, ∀ j, j < n →
    (scanUpTo d q pts dfl n).2 ≤ d q (pts.getD j dfl) := by
  intro n
  induction n with
  | zero => intro j hj; omega
  | succ n ih =>
    intro j hj
    rw [scanUpTo_succ]
    by_cases hlt : d q (pts.getD n dfl) < (scanUpTo d q pts dfl n).2
    · rw [if_pos hlt]
      by_cases hjn : j = n
      · subst hjn
        exact le_refl _
      · have := ih j (by omega)
        simp only []
        linarith
    · rw [if_neg hlt]
      by_cases hjn : j = n
      · subst hjn
        exact le_of_not_lt hlt
      · exact ih j (by omega)

/-- A slot reachable through the child pointers lies inside the range owned
by the starting slot. -/
theorem reaches_range {α : Type} {N : ℕ} {d : α → α → ℚ} {dfl : α}
    {pts : List α} {nodes : List CUDA_VPNode}
    (hGT : GoodTable N d dfl pts nodes) (s t : ℕ)
    (hR : Reaches nodes s t) : s < N → s ≤ t ∧ t < sendN N s := by
  induction hR with
  | self s =>
    intro hs
    exact ⟨le_refl s, hGT.sLow s hs⟩
  | goLeft s t hl hr ih =>
    intro hs
    have hlow := hGT.sLow s hs
    have hhigh := hGT.sHigh s hs
    have hint : s + 2 ≤ sendN N s := by
      by_contra hc
      have hleaf : sendN N s = s + 1 := by omega
      have := hGT.leafNodeEq s hs hleaf
      rw [this] at hl
      exact hl rfl
    have hml : (s + sendN N s) / 2 ≠ s + 1 := by
      intro hc
      exact hl (hGT.leftNone s hs hint hc)
    have hle := hGT.leftEq s hs hint hml
    have hlend := hGT.leftEnd s hs hint hml
    have hltn : (nodes.getD s defaultNode).left.toNat = s + 1 := by
      rw [hle]
      omega
    have hlN : (nodes.getD s defaultNode).left.toNat < N := by
      rw [hltn]
      omega
    obtain ⟨h1, h2⟩ := ih hlN
    rw [hltn] at h1 h2
    rw [hlend] at h2
    exact ⟨by omega, by omega⟩
  | goRight s t hl hr ih =>
    intro hs
    have hlow := hGT.sLow s hs
    have hhigh := hGT.sHigh s hs
    have hint : s + 2 ≤ sendN N s := by
      by_contra hc
      have hleaf : sendN N s = s + 1 := by omega
      have := hGT.leafNodeEq s hs hleaf
      rw [this] at hl
      exact hl rfl
    have hre := hGT.rightEq s hs hint
    have hrend := hGT.rightEnd s hs hint
    have hrtn : (nodes.getD s defaultNode).right.toNat = (s + sendN N s) / 2 := by
      rw [hre]
      omega
    have hrN : (nodes.getD s defaultNode).right.toNat < N := by
      rw [hrtn]
      omega
    obtain ⟨h1, h2⟩ := ih hrN
    rw [hrtn] at h1 h2
    rw [hrend] at h2
    exact ⟨by omega, h2⟩

/-- Sequencing a map of total searches: the result list is index-aligned
with the inputs. -/
theorem seqOpt_map {β γ : Type} (F : β → Option γ) (d0 : γ) :
    ∀ l : List β, (∀ x ∈ l, ∃ r, F x = some r) →
    ∃ rs : List γ, seqOpt (l.map F) = some rs ∧ rs.length = l.length ∧
      ∀ i, i < l.length → ∀ db, F (l.getD i db) = some (rs.getD i d0) := by
  intro l
  induction l with
  | nil =>
    intro _
    exact ⟨[], rfl, rfl, fun i hi => absurd hi (by simp)⟩
  | cons x xs ih =>
    intro h
    obtain ⟨r, hr⟩ := h x (by simp)
    obtain ⟨rs, hrs, hlen, hidx⟩ := ih (fun y hy => h y (by simp [hy]))
    refine ⟨r :: rs, ?_, by simp [hlen], ?_⟩
    · simp only [List.map_cons]
      rw [hr]
      show (seqOpt (xs.map F)).map (fun m => r :: m) = some (r :: rs)
      rw [hrs]
      rfl
    · intro i hi db
      cases i with
      | zero =>
        simpa using hr
      | succ i =>
        simp only [List.getD_cons_succ]
        exact hidx i (by simpa using hi) db

/-! ### The claims -/

/-- Computable absolute value on ℚ (metric used by the concrete witnesses). -/
def qabs (x : ℚ) : ℚ := if x < 0 then -x else x

theorem qabs_eq_abs (x : ℚ) : qabs x = |x| := by
  rw [qabs]
  by_cases h : x < 0
  · rw [if_pos h, abs_of_neg h]
  · rw [if_neg h, abs_of_nonneg (le_of_not_lt h)]

theorem qabs_sym (x y : ℚ) : qabs (x - y) = qabs (y - x) := by
  rw [qabs_eq_abs, qabs_eq_abs, abs_sub_comm]

theorem qabs_tri (x y z : ℚ) : qabs (x - z) ≤ qabs (x - y) + qabs (y - z) := by
  rw [qabs_eq_abs, qabs_eq_abs, qabs_eq_abs]
  exact abs_sub_le x y z

/-- C1: For every point set built into the tree with a symmetric metric
satisfying the triangle inequality (and values below `DBL_MAX` at the
query), and every query, provided the tree's depth is at most the stack
capacity minus one, `KNNSearch` returns the index (into the
builder-reordered point array) of a point at minimal metric distance to
the query, and that minimal distance — the same distance as an exhaustive
linear scan with the same strict-improvement update. -/
theorem C1_search_exact {α : Type} (d : α → α → ℚ) (dfl : α)
    (data : List α) (q : α) (hsym : ∀ x y, d x y = d y x)
    (htri : ∀ x y z, d x z ≤ d x y + d y z)
    (hbnd : ∀ x ∈ data, d q x < DBL_MAX) (hN : 1 ≤ data.length)
    (hdepth : rdepth 0 data.length ≤ CUDA_STACK_SIZE - 1)
    (fuel : ℕ) (hfuel : 3 * data.length + 2 ≤ fuel) :
    ∃ r : ℤ × ℚ,
      KNNSearch (buildFromPoints d dfl data).2 (buildFromPoints d dfl data).1
        q d dfl fuel = some r ∧
      0 ≤ r.1 ∧ r.1.toNat < data.length ∧
      r.2 = d q ((buildFromPoints d dfl data).1.getD r.1.toNat dfl) ∧
      (∀ j, j < data.length →
        r.2 ≤ d q ((buildFromPoints d dfl data).1.getD j dfl)) ∧
      r.2 = (linearScan d q (buildFromPoints d dfl data).1 dfl).2 := by
  set N := data.length with hNdef
  set pts := (buildFromPoints d dfl data).1 with hpts
  set nodes := (buildFromPoints d dfl data).2 with hnodes
  have hGT : GoodTable N d dfl pts nodes := build_good d dfl data
  have hperm : List.Perm pts data := build_perm d dfl data
  have hptslen : pts.length = N := hGT.ptsLen
  have hmem : ∀ j, j < N → pts.getD j dfl ∈ data := by
    intro j hj
    have h1 : pts.getD j dfl ∈ pts := getD_mem_of_lt pts dfl j (by omega)
    exact hperm.mem_iff.mp h1
  have hbnd2 : ∀ j, j < N → d q (pts.getD j dfl) < DBL_MAX :=
    fun j hj => hbnd _ (hmem j hj)
  obtain ⟨r, hr⟩ := runSearch_total q hGT fuel initState (initT hN)
    (by rw [measure_init hGT hN]; omega)
  obtain ⟨hmin, hbest⟩ := runSearch_correct q hGT hsym htri hdepth fuel
    initState r (initT hN) (initL N) (initC q hGT hN) hr
  have hbest2 : 0 ≤ r.1 ∧ r.1.toNat < N ∧
      r.2 = d q (pts.getD r.1.toNat dfl) := by
    rcases hbest with ⟨h1, h2⟩ | h
    · exfalso
      have h3 := hmin 0 (by omega)
      rw [h2] at h3
      exact absurd (lt_of_le_of_lt h3 (hbnd2 0 (by omega))) (lt_irrefl _)
    · exact h
  have hscan := scanUpTo_spec d q pts dfl pts.length
  have hscanmin := scanUpTo_min d q pts dfl pts.length
  rw [← linearScan_eq_scanUpTo] at hscan hscanmin
  have hscan2 : 0 ≤ (linearScan d q pts dfl).1 ∧
      (linearScan d q pts dfl).1.toNat < N ∧
      (linearScan d q pts dfl).2
        = d q (pts.getD (linearScan d q pts dfl).1.toNat dfl) := by
    rcases hscan with ⟨h1, h2⟩ | ⟨h1, h2, h3⟩
    · exfalso
      have h3 := hscanmin 0 (by omega)
      rw [h2] at h3
      exact absurd (lt_of_le_of_lt h3 (hbnd2 0 (by omega))) (lt_irrefl _)
    · exact ⟨h1, by omega, h3⟩
  have heq : r.2 = (linearScan d q pts dfl).2 := by
    have h1 : r.2 ≤ (linearScan d q pts dfl).2 := by
      rw [hscan2.2.2]
      exact hmin _ hscan2.2.1
    have h2 : (linearScan d q pts dfl).2 ≤ r.2 := by
      rw [hbest2.2.2]
      exact hscanmin _ (by omega)
    exact le_antisymm h1 h2
  exact ⟨r, hr, hbest2.1, hbest2.2.1, hbest2.2.2, hmin, heq⟩

theorem C1_search_exact_witness :
    ∃ r : ℤ × ℚ,
      KNNSearch (buildFromPoints (fun x y : ℚ => qabs (x - y)) 0 [0, 10, 5]).2
        (buildFromPoints (fun x y : ℚ => qabs (x - y)) 0 [0, 10, 5]).1
        6 (fun x y : ℚ => qabs (x - y)) 0 11 = some r ∧
      0 ≤ r.1 ∧ r.1.toNat < ([0, 10, 5] : List ℚ).length ∧
      r.2 = qabs (6 - (buildFromPoints (fun x y : ℚ => qabs (x - y)) 0
        [0, 10, 5]).1.getD r.1.toNat 0) ∧
      (∀ j, j < ([0, 10, 5] : List ℚ).length →
        r.2 ≤ qabs (6 - (buildFromPoints (fun x y : ℚ => qabs (x - y)) 0
          [0, 10, 5]).1.getD j 0)) ∧
      r.2 = (linearScan (fun x y : ℚ => qabs (x - y)) 6
        (buildFromPoints (fun x y : ℚ => qabs (x - y)) 0 [0, 10, 5]).1 0).2 :=
  C1_search_exact (fun x y : ℚ => qabs (x - y)) 0 [0, 10, 5] 6
    (fun x y => qabs_sym x y) (fun x y z => qabs_tri x y z)
    (by
      intro x hx
      fin_cases hx <;> norm_num [qabs, DBL_MAX])
    (by decide) (by decide) 11 (by decide)

/-- C2: After `buildFromPoints`, every internal node of the produced table
satisfies the tree invariant: every point reachable through its left child
is at distance at most `threshold` from the node's vantage point, and every
point reachable through its right child at distance at least `threshold`. -/
theorem C2_tree_invariant {α : Type} (d : α → α → ℚ) (dfl : α)
    (data : List α) (s : ℕ) (hs : s < data.length) :
    (∀ t, ((buildFromPoints d dfl data).2.getD s defaultNode).left ≠ -1 →
      Reaches (buildFromPoints d dfl data).2
        ((buildFromPoints d dfl data).2.getD s defaultNode).left.toNat t →
      d ((buildFromPoints d dfl data).1.getD s dfl)
          ((buildFromPoints d dfl data).1.getD t dfl)
        ≤ ((buildFromPoints d dfl data).2.getD s defaultNode).threshold) ∧
    (∀ t, ((buildFromPoints d dfl data).2.getD s defaultNode).right ≠ -1 →
      Reaches (buildFromPoints d dfl data).2
        ((buildFromPoints d dfl data).2.getD s defaultNode).right.toNat t →
      ((buildFromPoints d dfl data).2.getD s defaultNode).threshold
        ≤ d ((buildFromPoints d dfl data).1.getD s dfl)
            ((buildFromPoints d dfl data).1.getD t dfl)) := by
  set N := data.length with hNdef
  set pts := (buildFromPoints d dfl data).1 with hpts
  set nodes := (buildFromPoints d dfl data).2 with hnodes
  have hGT : GoodTable N d dfl pts nodes := build_good d dfl data
  have hlow := hGT.sLow s hs
  have hhigh := hGT.sHigh s hs
  constructor
  · intro t hl hr
    have hint : s + 2 ≤ sendN N s := by
      by_contra hc
      have hleaf : sendN N s = s + 1 := by omega
      have h2 := hGT.leafNodeEq s hs hleaf
      rw [h2] at hl
      exact hl rfl
    have hml : (s + sendN N s) / 2 ≠ s + 1 := by
      intro hc
      exact hl (hGT.leftNone s hs hint hc)
    have hle := hGT.leftEq s hs hint hml
    have hlend := hGT.leftEnd s hs hint hml
    have hltn : (nodes.getD s defaultNode).left.toNat = s + 1 := by
      rw [hle]
      omega
    have hlN : (nodes.getD s defaultNode).left.toNat < N := by
      rw [hltn]
      omega
    obtain ⟨h1, h2⟩ := reaches_range hGT _ t hr hlN
    rw [hltn] at h1 h2
    rw [hlend] at h2
    exact hGT.invLeft s hs hint t h1 h2
  · intro t hl hr
    have hint : s + 2 ≤ sendN N s := by
      by_contra hc
      have hleaf : sendN N s = s + 1 := by omega
      have h2 := hGT.leafNodeEq s hs hleaf
      rw [h2] at hl
      exact hl rfl
    have hre := hGT.rightEq s hs hint
    have hrend := hGT.rightEnd s hs hint
    have hrtn : (nodes.getD s defaultNode).right.toNat
        = (s + sendN N s) / 2 := by
      rw [hre]
      omega
    have hrN : (nodes.getD s defaultNode).right.toNat < N := by
      rw [hrtn]
      omega
    obtain ⟨h1, h2⟩ := reaches_range hGT _ t hr hrN
    rw [hrtn] at h1 h2
    rw [hrend] at h2
    exact hGT.invRight s hs hint t h1 h2

theorem C2_tree_invariant_witness :
    ((buildFromPoints (fun x y : ℚ => qabs (x - y)) 0 [0, 10, 5]).2.getD 0
        defaultNode).threshold
      ≤ qabs ((buildFromPoints (fun x y : ℚ => qabs (x - y)) 0
            [0, 10, 5]).1.getD 0 0 -
          (buildFromPoints (fun x y : ℚ => qabs (x - y)) 0 [0, 10, 5]).1.getD
            ((buildFromPoints (fun x y : ℚ => qabs (x - y)) 0
              [0, 10, 5]).2.getD 0 defaultNode).right.toNat 0) :=
  (C2_tree_invariant (fun x y : ℚ => qabs (x - y)) 0 [0, 10, 5] 0
      (by decide)).2 _
    (by
      rw [(build_good (fun x y : ℚ => qabs (x - y)) 0 [0, 10, 5]).rightEq 0
        (by decide) (by decide)]
      decide)
    (Reaches.self _)

/-- C3: For dimension counts above 1 the reference metrics depend only on
the last coordinate, because the loop overwrites instead of accumulating
the per-dimension squared difference; the distance between (0,0) and (3,4)
evaluates to 4, not 5. -/
theorem C3_distance_last_coordinate (D : ℕ) (hD : 1 ≤ D) (a b : ℕ → ℚ) :
    euclidean_total D a b = (b (D - 1) - a (D - 1)) * (b (D - 1) - a (D - 1)) ∧
    euclidean_distance D a b = ((|b (D - 1) - a (D - 1)| : ℚ) : ℝ) ∧
    gpu_euclidean_distance D a b = ((|b (D - 1) - a (D - 1)| : ℚ) : ℝ) ∧
    euclidean_distance 2 (fun _ => (0 : ℚ))
        (fun i => if i = 0 then (3 : ℚ) else 4) = 4 ∧
    euclidean_distance 2 (fun _ => (0 : ℚ))
        (fun i => if i = 0 then (3 : ℚ) else 4) ≠ 5 := by
  obtain ⟨E, rfl⟩ : ∃ E, D = E + 1 := ⟨D - 1, by omega⟩
  have htot : euclidean_total (E + 1) a b = (b E - a E) * (b E - a E) := by
    rw [euclidean_total, List.range_succ, List.foldl_append]
    rfl
  have hE : E + 1 - 1 = E := by omega
  have hdist : euclidean_distance (E + 1) a b
      = ((|b E - a E| : ℚ) : ℝ) := by
    rw [euclidean_distance, htot]
    push_cast
    rw [← sq]
    exact Real.sqrt_sq_eq_abs _
  have hconc : euclidean_distance 2 (fun _ => (0 : ℚ))
      (fun i => if i = 0 then (3 : ℚ) else 4) = 4 := by
    have h16 : euclidean_total 2 (fun _ => (0 : ℚ))
        (fun i => if i = 0 then (3 : ℚ) else 4) = 16 := by
      rw [show (2 : ℕ) = 1 + 1 from rfl, euclidean_total, List.range_succ,
        List.foldl_append]
      norm_num
    rw [euclidean_distance, h16]
    rw [show ((16 : ℚ) : ℝ) = (4 : ℝ) ^ 2 by norm_num]
    exact Real.sqrt_sq (by norm_num)
  refine ⟨by rw [hE]; exact htot, by rw [hE]; exact hdist, ?_, hconc, ?_⟩
  · rw [hE]
    rw [show gpu_euclidean_distance (E + 1) a b
      = euclidean_distance (E + 1) a b from rfl]
    exact hdist
  · rw [hconc]
    norm_num

theorem C3_distance_last_coordinate_witness :
    euclidean_total 2 (fun _ => (0 : ℚ)) (fun i => if i = 0 then (3 : ℚ) else 4)
        = ((if (1 : ℕ) = 0 then (3 : ℚ) else 4) - 0) *
          ((if (1 : ℕ) = 0 then (3 : ℚ) else 4) - 0) ∧
    euclidean_distance 2 (fun _ => (0 : ℚ))
        (fun i => if i = 0 then (3 : ℚ) else 4)
      = ((|(if (1 : ℕ) = 0 then (3 : ℚ) else 4) - 0| : ℚ) : ℝ) ∧
    gpu_euclidean_distance 2 (fun _ => (0 : ℚ))
        (fun i => if i = 0 then (3 : ℚ) else 4)
      = ((|(if (1 : ℕ) = 0 then (3 : ℚ) else 4) - 0| : ℚ) : ℝ) ∧
    euclidean_distance 2 (fun _ => (0 : ℚ))
        (fun i => if i = 0 then (3 : ℚ) else 4) = 4 ∧
    euclidean_distance 2 (fun _ => (0 : ℚ))
        (fun i => if i = 0 then (3 : ℚ) else 4) ≠ 5 :=
  C3_distance_last_coordinate 2 (by decide) (fun _ => (0 : ℚ))
    (fun i => if i = 0 then (3 : ℚ) else 4)

/-- A three-node table whose root is internal (children at slots 1 and 2). -/
def c4nodes : List CUDA_VPNode := [⟨0, 1, 1, 2⟩, ⟨1, 0, -1, -1⟩, ⟨2, 0, -1, -1⟩]

/-- A legal traversal state: 31 live stack entries (`stackPtr = 30`), about
to expand the internal root. -/
def c4state : SState := ⟨-1, 1, 1, List.replicate 31 (-1), 0, 30⟩

/-- The same with 32 live stack entries (`stackPtr = 31`, the topmost legal
slot). -/
def c4state2 : SState := ⟨-1, 1, 1, List.replicate 32 (-1), 0, 31⟩

/-- C4 (refuted — code bug): the capacity check compares the stack pointer
against the capacity only after the pushes, so the push phase writes
`nodeStack[32]` — one slot past the last valid index `31` — without taking
the error branch: from a traversal state with 31 stack entries the
iteration writes indices 31 and 32 (`hi = 32 ≥ CUDA_STACK_SIZE`) and
continues normally with `Sum.inl`, and from 32 entries it writes indices
32 and 33 before the break fires. -/
theorem C4_overflow_check_late :
    (stepSearch c4nodes [(0 : ℚ), 0, 0] 0 (fun _ _ => 1) 0 c4state
        = Sum.inl ⟨-1, 1, 1, (1 : ℤ) :: List.replicate 31 (-1), 2, 32⟩) ∧
    CUDA_STACK_SIZE ≤ 32 ∧
    (pushChildren (c4nodes.getD 0 defaultNode) 1 1 c4state2.stack
        c4state2.hi).2 = 33 ∧
    stepSearch c4nodes [(0 : ℚ), 0, 0] 0 (fun _ _ => 1) 0 c4state2
        = Sum.inr (-1, -1) := by
  refine ⟨?_, by decide, ?_, ?_⟩
  · simp only [stepSearch, c4state, c4nodes, updBest, pushChildren,
      CUDA_STACK_SIZE]
    norm_num
  · simp only [c4state2, c4nodes, pushChildren]
    norm_num
  · simp only [stepSearch, c4state2, c4nodes, updBest, pushChildren,
      CUDA_STACK_SIZE]
    norm_num

/-- C5: `buildFromPoints` emits exactly `N` nodes; the slot of each node
equals its recorded `index` (the lower bound of its range, the vantage
point's position in the reordered array); the recorded child ids
`lower + 1` and `median` address exactly the slots whose nodes carry those
indices — the addressing scheme `KNNSearch` relies on. -/
theorem C5_slot_addressing {α : Type} (d : α → α → ℚ) (dfl : α)
    (data : List α) :
    (buildFromPoints d dfl data).2.length = data.length ∧
    ∀ s, s < data.length →
      ((buildFromPoints d dfl data).2.getD s defaultNode).index = (s : ℤ) ∧
      (((buildFromPoints d dfl data).2.getD s defaultNode).left ≠ -1 →
        ((buildFromPoints d dfl data).2.getD s defaultNode).left
            = (s : ℤ) + 1 ∧
        s + 1 < data.length ∧
        ((buildFromPoints d dfl data).2.getD (s + 1) defaultNode).index
          = (s : ℤ) + 1) ∧
      (((buildFromPoints d dfl data).2.getD s defaultNode).right ≠ -1 →
        ((buildFromPoints d dfl data).2.getD s defaultNode).right
            = (((s + sendN data.length s) / 2 : ℕ) : ℤ) ∧
        (s + sendN data.length s) / 2 < data.length ∧
        ((buildFromPoints d dfl data).2.getD ((s + sendN data.length s) / 2)
            defaultNode).index
          = (((s + sendN data.length s) / 2 : ℕ) : ℤ)) := by
  set N := data.length with hNdef
  set pts := (buildFromPoints d dfl data).1 with hpts
  set nodes := (buildFromPoints d dfl data).2 with hnodes
  have hGT : GoodTable N d dfl pts nodes := build_good d dfl data
  refine ⟨hGT.nodesLen, ?_⟩
  intro s hs
  have hlow := hGT.sLow s hs
  have hhigh := hGT.sHigh s hs
  refine ⟨hGT.idx s hs, ?_, ?_⟩
  · intro hl
    have hint : s + 2 ≤ sendN N s := by
      by_contra hc
      have hleaf : sendN N s = s + 1 := by omega
      have h2 := hGT.leafNodeEq s hs hleaf
      rw [h2] at hl
      exact hl rfl
    have hml : (s + sendN N s) / 2 ≠ s + 1 := by
      intro hc
      exact hl (hGT.leftNone s hs hint hc)
    have hle := hGT.leftEq s hs hint hml
    have hsN : s + 1 < N := by omega
    refine ⟨hle, hsN, ?_⟩
    have := hGT.idx (s + 1) hsN
    rw [this]
    push_cast
    ring
  · intro hl
    have hint : s + 2 ≤ sendN N s := by
      by_contra hc
      have hleaf : sendN N s = s + 1 := by omega
      have h2 := hGT.leafNodeEq s hs hleaf
      rw [h2] at hl
      exact hl rfl
    have hre := hGT.rightEq s hs hint
    have hmN : (s + sendN N s) / 2 < N := by omega
    exact ⟨hre, hmN, hGT.idx _ hmN⟩

theorem C5_slot_addressing_witness :
    (buildFromPoints (fun x y : ℚ => qabs (x - y)) 0 [3, 1, 2]).2.length
        = ([3, 1, 2] : List ℚ).length ∧
    ((buildFromPoints (fun x y : ℚ => qabs (x - y)) 0 [3, 1, 2]).2.getD 0
        defaultNode).index = (0 : ℤ) :=
  ⟨(C5_slot_addressing (fun x y : ℚ => qabs (x - y)) 0 [3, 1, 2]).1,
    ((C5_slot_addressing (fun x y : ℚ => qabs (x - y)) 0 [3, 1, 2]).2 0
      (by decide)).1⟩

/-- C6: When the capacity check fires the query's result is exactly the
failure sentinel `(-1, -1.0)` and the loop exits; and every query of a
batch is served independently — position `i` of the batch kernel's output
is exactly the single-query search of `queries[i]` against the tree. -/
theorem C6_break_sentinel_batch_independent {α : Type}
    (nodes : List CUDA_VPNode) (pts : List α) (q : α) (d : α → α → ℚ)
    (dfl : α) (st : SState) (r : ℤ × ℚ)
    (hne : ¬(st.stack = [] ∧ st.cur = -1))
    (hbrk : stepSearch nodes pts q d dfl st = Sum.inr r) :
    r = (-1, -1) ∧
    ∀ (queries : List α) (fuel : ℕ) (i : ℕ), i < queries.length → ∀ db,
      (KNNSearchBatch nodes pts queries d dfl fuel).getD i none
        = KNNSearch nodes pts (queries.getD i db) d dfl fuel := by
  constructor
  · rcases stepSearch_inr_cases nodes pts q d dfl st r hbrk with
      ⟨h1, h2, _⟩ | ⟨_, h, _⟩
    · exact absurd ⟨h1, h2⟩ hne
    · exact h
  · intro queries fuel i hi db
    have h2 : queries.getD i db = queries[i] := List.getD_eq_getElem _ _ hi
    rw [KNNSearchBatch, h2]
    rw [List.getD_eq_getElem _ _ (by simpa using hi)]
    simp

/-- A state whose stack already uses every slot (`stackPtr = 32` would be
the next write): expanding an internal node from here must break. -/
def c6state : SState := ⟨-1, 1, 1, List.replicate 33 (-1), 0, 32⟩

/-- A three-node table whose root is internal, for the break witness. -/
def c6nodes : List CUDA_VPNode := [⟨0, 1, 1, 2⟩, ⟨1, 0, -1, -1⟩, ⟨2, 0, -1, -1⟩]

theorem C6_break_witness :
    ((-1, -1) : ℤ × ℚ) = (-1, -1) ∧
    (KNNSearchBatch c6nodes [(0 : ℚ), 0, 0] [(0 : ℚ), 1] (fun _ _ => 1) 0
        3).getD 0 none
      = KNNSearch c6nodes [(0 : ℚ), 0, 0] (([(0 : ℚ), 1]).getD 0 0)
          (fun _ _ => 1) 0 3 := by
  have h := C6_break_sentinel_batch_independent c6nodes [(0 : ℚ), 0, 0] 0
    (fun _ _ => 1) 0 c6state (-1, -1)
    (by decide)
    (by
      simp only [stepSearch, c6state, c6nodes, updBest, pushChildren,
        CUDA_STACK_SIZE]
      norm_num)
  exact ⟨h.1, h.2 [(0 : ℚ), 1] 3 0 (by decide) 0⟩

/-- C7: calling `knnSearch` before any successful build (`tree_valid`
false) is a no-op on the output vectors; with the initially empty output
vectors the caller gets empty/zero-length result sequences. -/
theorem C7_search_before_build {α : Type} (queries : List α)
    (d : α → α → ℚ) (dfl : α) (fuel : ℕ) :
    knnSearch (emptyTree : CUDA_VPTree α) queries [] [] d dfl fuel
      = some ([], []) ∧
    ∀ (indices : List ℤ) (distances : List ℚ),
      knnSearch (emptyTree : CUDA_VPTree α) queries indices distances d dfl
        fuel = some (indices, distances) := by
  constructor
  · rfl
  · intro indices distances
    rfl

/-- C8: on a built tree, the batched search succeeds, its two output
sequences are index-aligned with the query batch (same length), and at
every position the `(index, distance)` pair equals the result of searching
the single-element batch of that query alone. -/
theorem C8_batch_single_equivalence {α : Type} (d : α → α → ℚ) (dfl : α)
    (data queries : List α) (ind : List ℤ) (dist : List ℚ)
    (hN : 1 ≤ data.length) (fuel : ℕ)
    (hfuel : 3 * data.length + 2 ≤ fuel) :
    ∃ rs : List (ℤ × ℚ),
      knnSearch (createVPTree d dfl data) queries ind dist d dfl fuel
        = some (rs.map Prod.fst, rs.map Prod.snd) ∧
      rs.length = queries.length ∧
      (rs.map Prod.fst).length = queries.length ∧
      (rs.map Prod.snd).length = queries.length ∧
      ∀ i, i < queries.length → ∀ db,
        knnSearch (createVPTree d dfl data) [queries.getD i db] ind dist d
            dfl fuel
          = some ([(rs.getD i (0, 0)).1], [(rs.getD i (0, 0)).2]) := by
  have hGT : GoodTable data.length d dfl (createVPTree d dfl data).points
      (createVPTree d dfl data).nodes := build_good d dfl data
  have htot : ∀ x ∈ queries, ∃ r,
      KNNSearch (createVPTree d dfl data).nodes
        (createVPTree d dfl data).points x d dfl fuel = some r := by
    intro x _
    exact runSearch_total x hGT fuel initState (initT hN)
      (by rw [measure_init hGT hN]; omega)
  obtain ⟨rs, hseq, hlen, hidx⟩ := seqOpt_map _ (0, 0) queries htot
  have hvalid : ¬((createVPTree d dfl data).tree_valid = false) := by
    simp [createVPTree]
  refine ⟨rs, ?_, hlen, by simp [hlen], by simp [hlen], ?_⟩
  · have hbatch : KNNSearchBatch (createVPTree d dfl data).nodes
        (createVPTree d dfl data).points queries d dfl fuel
        = queries.map (fun q2 => KNNSearch (createVPTree d dfl data).nodes
            (createVPTree d dfl data).points q2 d dfl fuel) := rfl
    rw [knnSearch, if_neg hvalid, hbatch, hseq]
  · intro i hi db
    have hF : KNNSearch (createVPTree d dfl data).nodes
        (createVPTree d dfl data).points (queries.getD i db) d dfl fuel
        = some (rs.getD i (0, 0)) := hidx i hi db
    have hsingle : KNNSearchBatch (createVPTree d dfl data).nodes
        (createVPTree d dfl data).points [queries.getD i db] d dfl fuel
        = [KNNSearch (createVPTree d dfl data).nodes
            (createVPTree d dfl data).points (queries.getD i db) d dfl
            fuel] := rfl
    rw [knnSearch, if_neg hvalid, hsingle, hF]
    rfl

theorem C8_batch_single_equivalence_witness :
    ∃ rs : List (ℤ × ℚ),
      knnSearch (createVPTree (fun x y : ℚ => qabs (x - y)) 0 [1, 2])
          [(0 : ℚ), 3] [] [] (fun x y : ℚ => qabs (x - y)) 0 8
        = some (rs.map Prod.fst, rs.map Prod.snd) ∧
      rs.length = ([(0 : ℚ), 3] : List ℚ).length ∧
      (rs.map Prod.fst).length = ([(0 : ℚ), 3] : List ℚ).length ∧
      (rs.map Prod.snd).length = ([(0 : ℚ), 3] : List ℚ).length ∧
      ∀ i, i < ([(0 : ℚ), 3] : List ℚ).length → ∀ db,
        knnSearch (createVPTree (fun x y : ℚ => qabs (x - y)) 0 [1, 2])
            [([(0 : ℚ), 3]).getD i db] [] [] (fun x y : ℚ => qabs (x - y))
            0 8
          = some ([(rs.getD i (0, 0)).1], [(rs.getD i (0, 0)).2]) :=
  C8_batch_single_equivalence (fun x y : ℚ => qabs (x - y)) 0 [1, 2]
    [(0 : ℚ), 3] [] [] (by decide) 8 (by decide)

/-- C9: a range of size exactly one produces a leaf node: only the `index`
field is written, so the node equals the default-initialized record with
that index, whose `left` and `right` are the no-child sentinel `-1`. -/
theorem C9_size_one_leaf {α : Type} (d : α → α → ℚ) (dfl : α)
    (data : List α) (s : ℕ) (hs : s < data.length)
    (hone : sendN data.length s = s + 1) :
    (buildFromPoints d dfl data).2.getD s defaultNode
        = { defaultNode with index := (s : ℤ) } ∧
    ((buildFromPoints d dfl data).2.getD s defaultNode).left = -1 ∧
    ((buildFromPoints d dfl data).2.getD s defaultNode).right = -1 ∧
    defaultNode.left = -1 ∧ defaultNode.right = -1 := by
  have hGT := build_good d dfl data
  have h := hGT.leafNodeEq s hs hone
  refine ⟨h, by rw [h]; rfl, by rw [h]; rfl, rfl, rfl⟩

theorem C9_size_one_leaf_witness :
    (buildFromPoints (fun x y : ℚ => qabs (x - y)) 0 [5, 7]).2.getD 1
        defaultNode
      = { defaultNode with index := (1 : ℤ) } ∧
    ((buildFromPoints (fun x y : ℚ => qabs (x - y)) 0 [5, 7]).2.getD 1
        defaultNode).left = -1 ∧
    ((buildFromPoints (fun x y : ℚ => qabs (x - y)) 0 [5, 7]).2.getD 1
        defaultNode).right = -1 ∧
    defaultNode.left = -1 ∧ defaultNode.right = -1 :=
  C9_size_one_leaf (fun x y : ℚ => qabs (x - y)) 0 [5, 7] 1 (by decide)
    (by decide)

/-- C10 (implicit): on every table produced by `buildFromPoints` from a
nonempty point set, the `KNNSearch` loop terminates — `3 · N + 2`
iterations always reach an exit, for every query and distance function. -/
theorem C10_search_total {α : Type} (d : α → α → ℚ) (dfl : α)
    (data : List α) (q : α) (hN : 1 ≤ data.length) (fuel : ℕ)
    (hfuel : 3 * data.length + 2 ≤ fuel) :
    ∃ r, KNNSearch (buildFromPoints d dfl data).2
      (buildFromPoints d dfl data).1 q d dfl fuel = some r := by
  have hGT : GoodTable data.length d dfl (buildFromPoints d dfl data).1
      (buildFromPoints d dfl data).2 := build_good d dfl data
  exact runSearch_total q hGT fuel initState (initT hN)
    (by rw [measure_init hGT hN]; omega)

theorem C10_search_total_witness :
    ∃ r, KNNSearch (buildFromPoints (fun x y : ℚ => qabs (x - y)) 0
        [2, 9]).2
      (buildFromPoints (fun x y : ℚ => qabs (x - y)) 0 [2, 9]).1 4
      (fun x y : ℚ => qabs (x - y)) 0 8 = some r :=
  C10_search_total (fun x y : ℚ => qabs (x - y)) 0 [2, 9] 4 (by decide) 8
    (by decide)

end cu_vp
